import Mathlib

set_option maxHeartbeats 1000000

namespace Kd

/-- Model of an IEEE `f64` value with exact (rational) finite arithmetic.
NaN and the two infinities are represented explicitly because the tree uses
`+inf` / `-inf` as "empty bounding box" sentinels and the splitting code
checks for NaN spreads.  Rounding of finite arithmetic is not modelled: all
finite computation is exact over `ℚ`. -/
inductive F : Type where
  | nan : F
  | inf : F
  | ninf : F
  | fin : ℚ → F
deriving DecidableEq, Repr

/-- Model of `f64::is_nan`. -/
def F.isNaN : F → Bool
  | .nan => true
  | _ => false

/-- Model of `f64::is_finite`. -/
def F.isFinite : F → Bool
  | .fin _ => true
  | _ => false

/-- Model of the IEEE `<` comparison: false whenever either side is NaN. -/
def F.lt : F → F → Bool
  | .nan, _ => false
  | _, .nan => false
  | .ninf, .ninf => false
  | .ninf, _ => true
  | _, .ninf => false
  | .inf, _ => false
  | _, .inf => true
  | .fin a, .fin b => decide (a < b)

/-- Model of the IEEE `<=` comparison: false whenever either side is NaN. -/
def F.le (a b : F) : Bool := !a.isNaN && !b.isNaN && !(F.lt b a)

/-- Model of IEEE negation (`x * -1.0`). -/
def F.neg : F → F
  | .nan => .nan
  | .inf => .ninf
  | .ninf => .inf
  | .fin a => .fin (-a)

/-- Model of IEEE subtraction; `inf - inf` and `-inf - -inf` give NaN. -/
def F.sub : F → F → F
  | .nan, _ => .nan
  | _, .nan => .nan
  | .inf, .inf => .nan
  | .inf, _ => .inf
  | .ninf, .ninf => .nan
  | .ninf, _ => .ninf
  | .fin _, .inf => .ninf
  | .fin _, .ninf => .inf
  | .fin a, .fin b => .fin (a - b)

/-- Model of IEEE addition; `inf + -inf` gives NaN. -/
def F.add : F → F → F
  | .nan, _ => .nan
  | _, .nan => .nan
  | .inf, .ninf => .nan
  | .ninf, .inf => .nan
  | .inf, _ => .inf
  | _, .inf => .inf
  | .ninf, _ => .ninf
  | _, .ninf => .ninf
  | .fin a, .fin b => .fin (a + b)

/-- Model of IEEE division by the constant `2f64`. -/
def F.div2 : F → F
  | .nan => .nan
  | .inf => .inf
  | .ninf => .ninf
  | .fin a => .fin (a / 2)

theorem F.lt_irrefl (a : F) : F.lt a a = false := by
  cases a <;> simp [F.lt]

theorem F.lt_nan_right (a : F) : F.lt a .nan = false := by
  cases a <;> simp [F.lt]

theorem F.lt_nan_left (a : F) : F.lt .nan a = false := by
  cases a <;> simp [F.lt]

theorem F.not_nan_of_lt {a b : F} (h : F.lt a b = true) :
    a.isNaN = false ∧ b.isNaN = false := by
  cases a <;> cases b <;> simp_all [F.lt, F.isNaN]

theorem F.lt_trans {a b c : F} (h1 : F.lt a b = true) (h2 : F.lt b c = true) :
    F.lt a c = true := by
  cases a <;> cases b <;> cases c <;> simp_all [F.lt] <;> linarith

theorem F.le_refl {a : F} (h : a.isNaN = false) : F.le a a = true := by
  cases a <;> simp_all [F.le, F.lt, F.isNaN]

theorem F.le_of_lt {a b : F} (h : F.lt a b = true) : F.le a b = true := by
  cases a <;> cases b <;> simp_all [F.le, F.lt, F.isNaN] <;> linarith

theorem F.le_of_not_lt {a b : F} (ha : a.isNaN = false) (hb : b.isNaN = false)
    (h : F.lt b a = false) : F.le a b = true := by
  simp [F.le, ha, hb, h]

theorem F.lt_of_not_le {a b : F} (ha : a.isNaN = false) (hb : b.isNaN = false)
    (h : F.le a b = false) : F.lt b a = true := by
  simp [F.le, ha, hb] at h
  exact h

theorem F.not_lt_of_le {a b : F} (h : F.le a b = true) : F.lt b a = false := by
  cases a <;> cases b <;> simp_all [F.le, F.lt, F.isNaN] <;> linarith

theorem F.le_total_of_not_nan {a b : F} (ha : a.isNaN = false) (hb : b.isNaN = false) :
    F.le a b = true ∨ F.le b a = true := by
  cases a <;> cases b <;> simp_all [F.le, F.lt, F.isNaN]
  exact le_total _ _

theorem F.le_trans {a b c : F} (h1 : F.le a b = true) (h2 : F.le b c = true) :
    F.le a c = true := by
  cases a <;> cases b <;> cases c <;> simp_all [F.le, F.lt, F.isNaN] <;> linarith

theorem F.lt_of_le_of_lt {a b c : F} (h1 : F.le a b = true) (h2 : F.lt b c = true) :
    F.lt a c = true := by
  cases a <;> cases b <;> cases c <;> simp_all [F.le, F.lt, F.isNaN] <;> linarith

theorem F.le_of_le_of_lt {a b c : F} (h1 : F.le a b = true) (h2 : F.lt b c = true) :
    F.le a c = true :=
  F.le_of_lt (F.lt_of_le_of_lt h1 h2)

theorem F.le_inf {a : F} (h : a.isNaN = false) : F.le a .inf = true := by
  cases a <;> simp_all [F.le, F.lt, F.isNaN]

theorem F.isNaN_false_of_isFinite {a : F} (h : a.isFinite = true) : a.isNaN = false := by
  cases a <;> simp_all [F.isFinite, F.isNaN]

theorem F.fin_lt_fin {a b : ℚ} : F.lt (.fin a) (.fin b) = true ↔ a < b := by
  simp [F.lt]

theorem F.fin_le_fin {a b : ℚ} : F.le (.fin a) (.fin b) = true ↔ a ≤ b := by
  simp [F.le, F.lt, F.isNaN]

/-- Model of `ErrorKind` from `src/kdtree.rs`. -/
inductive ErrorKind : Type where
  | WrongDimension : ErrorKind
  | NonFiniteCoordinate : ErrorKind
  | ZeroCapacity : ErrorKind
deriving DecidableEq, Repr

/-- Model of the `KdTree` struct from `src/kdtree.rs`, field for field (the
`Option` fields mirror the Rust `Option`s; `U: AsRef<[f64]>` points are
`List F`, buckets hold payloads of type `α`). -/
inductive KdTree (α : Type) : Type where
  | mk (left : Option (KdTree α)) (right : Option (KdTree α))
      (dimensions : Nat) (capacity : Nat) (size : Nat)
      (min_bounds : List F) (max_bounds : List F)
      (split_value : Option F) (split_dimension : Option Nat)
      (points : Option (List (List F))) (bucket : Option (List α))

def KdTree.left : KdTree α → Option (KdTree α)
  | .mk l _ _ _ _ _ _ _ _ _ _ => l

def KdTree.right : KdTree α → Option (KdTree α)
  | .mk _ r _ _ _ _ _ _ _ _ _ => r

def KdTree.dimensions : KdTree α → Nat
  | .mk _ _ dims _ _ _ _ _ _ _ _ => dims

def KdTree.capacity : KdTree α → Nat
  | .mk _ _ _ cap _ _ _ _ _ _ _ => cap

/-- Model of `KdTree::size`. -/
def KdTree.size : KdTree α → Nat
  | .mk _ _ _ _ sz _ _ _ _ _ _ => sz

def KdTree.min_bounds : KdTree α → List F
  | .mk _ _ _ _ _ minb _ _ _ _ _ => minb

def KdTree.max_bounds : KdTree α → List F
  | .mk _ _ _ _ _ _ maxb _ _ _ _ => maxb

def KdTree.split_value : KdTree α → Option F
  | .mk _ _ _ _ _ _ _ sv _ _ _ => sv

def KdTree.split_dimension : KdTree α → Option Nat
  | .mk _ _ _ _ _ _ _ _ sd _ _ => sd

def KdTree.points : KdTree α → Option (List (List F))
  | .mk _ _ _ _ _ _ _ _ _ pts _ => pts

def KdTree.bucket : KdTree α → Option (List α)
  | .mk _ _ _ _ _ _ _ _ _ _ bkt => bkt

/-- Model of `KdTree::new_with_capacity`. -/
def KdTree.new_with_capacity (α : Type) (dimensions capacity : Nat) : KdTree α :=
  .mk none none dimensions capacity 0
    (List.replicate dimensions F.inf) (List.replicate dimensions F.ninf)
    none none (some []) (some [])

/-- Model of `KdTree::new` (default capacity `2^4 = 16`). -/
def KdTree.new (α : Type) (dims : Nat) : KdTree α :=
  KdTree.new_with_capacity α dims (2 ^ 4)

/-- Model of `KdTree::is_leaf`. -/
def KdTree.is_leaf (t : KdTree α) : Bool :=
  t.bucket.isSome && t.points.isSome && t.split_value.isNone &&
  t.split_dimension.isNone && t.left.isNone && t.right.isNone

/-- Model of the coordinate loop of `KdTree::check_point`. -/
def checkCoords : List F → Except ErrorKind Unit
  | [] => .ok ()
  | c :: rest => if c.isFinite then checkCoords rest else .error .NonFiniteCoordinate

/-- Model of `KdTree::check_point`. -/
def KdTree.check_point (t : KdTree α) (point : List F) : Except ErrorKind Unit :=
  if t.dimensions ≠ point.length then .error .WrongDimension
  else checkCoords point

/-- Model of the zip loop in `KdTree::extend`: the three iterators stop at the
shortest, entries of the bounds beyond the point length stay unchanged. -/
def extendBounds : List F → List F → List F → List F × List F
  | l :: ls, h :: hs, v :: vs =>
    let rest := extendBounds ls hs vs
    ((if F.lt v l then v else l) :: rest.1, (if F.lt h v then v else h) :: rest.2)
  | ls, hs, _ => (ls, hs)

/-- Model of `KdTree::extend`. -/
def KdTree.extend : KdTree α → List F → KdTree α
  | .mk l r dims cap sz minb maxb sv sd pts bkt, point =>
    let eb := extendBounds minb maxb point
    .mk l r dims cap sz eb.1 eb.2 sv sd pts bkt

/-- Model of `KdTree::belongs_in_left`.  The source unwraps
`split_dimension`/`split_value` (a panic on a leaf, never reached from
well-formed trees); the model uses defaults at those unreachable points. -/
def KdTree.belongs_in_left (t : KdTree α) (point : List F) : Bool :=
  F.lt (point.getD (t.split_dimension.getD 0) F.nan) (t.split_value.getD F.nan)

/-- Spread `max_bounds[i] - min_bounds[i]` of a bounding box on dimension `i`
(out-of-range indexing, a panic in the source, is defaulted to NaN). -/
def spreadAt (minb maxb : List F) (i : Nat) : F :=
  F.sub (maxb.getD i F.nan) (minb.getD i F.nan)

/-- Model of the dimension-selection loop of `KdTree::split`: scan dimensions
`dim, dim+1, ...` (`rem` of them), keeping the running maximum spread `mx`
(initially `0.0`) and the best dimension so far (initially the node's stored
`split_dimension`). -/
def splitDimGo (minb maxb : List F) : Nat → Nat → F → Option Nat → Option Nat
  | 0, _, _, best => best
  | rem + 1, dim, mx, best =>
    let diff := spreadAt minb maxb dim
    if !diff.isNaN && F.lt mx diff then
      splitDimGo minb maxb rem (dim + 1) diff (some dim)
    else
      splitDimGo minb maxb rem (dim + 1) mx best

/-- Order in which the `while !points.is_empty() { swap_remove(0) }` loop of
`KdTree::split` drains the bucket: the first pair, then the rest reversed. -/
def routeOrder : List β → List β
  | [] => []
  | x :: xs => x :: xs.reverse

/-- Model of `KdTree::split`, parameterized by the function used to insert the
redistributed pairs into the fresh children (`add_to_bucket` in the source;
the parameter breaks the source's mutual recursion, see
`KdTree.add_to_bucket`).  Entered with `points`/`bucket` already taken out of
the node (they are `None` in the source at this point). -/
def KdTree.splitWith (adder : KdTree α → List F → α → KdTree α)
    (t : KdTree α) (points : List (List F)) (bucket : List α) : KdTree α :=
  match t with
  | .mk l r dims cap sz minb maxb sv sd _ _ =>
    match splitDimGo minb maxb dims 0 (F.fin 0) sd with
    | none => .mk l r dims cap sz minb maxb sv none (some points) (some bucket)
    | some dim =>
      let mn := minb.getD dim F.nan
      let mx := maxb.getD dim F.nan
      let sv2 := some (F.add mn (F.div2 (F.sub mx mn)))
      let parent := KdTree.mk l r dims cap sz minb maxb sv2 (some dim) none none
      let pairs := routeOrder (points.zip bucket)
      let lr := pairs.foldl
        (fun (acc : KdTree α × KdTree α) pv =>
          if parent.belongs_in_left pv.1 then (adder acc.1 pv.1 pv.2, acc.2)
          else (acc.1, adder acc.2 pv.1 pv.2))
        (KdTree.new_with_capacity α dims cap, KdTree.new_with_capacity α dims cap)
      KdTree.mk (some lr.1) (some lr.2) dims cap sz minb maxb sv2 (some dim) none none

/-- Model of `KdTree::add_to_bucket`.  The source recursion
`add_to_bucket -> split -> add_to_bucket` (into the fresh children) has no
structural measure, so it is metered by `fuel`; the `fuel = 0` branch is never
reached from well-formed trees (callers pass `size + 2`, which suffices, see
the preservation lemmas below).  Taking `points`/`bucket` out of a node that
has none (a panic in the source, unreachable from well-formed trees) is
defaulted to the empty bucket. -/
def KdTree.add_to_bucket : Nat → KdTree α → List F → α → KdTree α
  | 0, t, _, _ => t
  | fuel + 1, t, point, data =>
    match t.extend point with
    | .mk l r dims cap sz minb maxb sv sd pts bkt =>
      let points := pts.getD [] ++ [point]
      let bucket := bkt.getD [] ++ [data]
      if sz + 1 > cap then
        KdTree.splitWith (fun c q w => KdTree.add_to_bucket fuel c q w)
          (.mk l r dims cap (sz + 1) minb maxb sv sd none none) points bucket
      else
        .mk l r dims cap (sz + 1) minb maxb sv sd (some points) (some bucket)

/-- Model of `KdTree::add_unchecked`.  The `None` child at a stem (an `unwrap`
panic in the source, unreachable from well-formed trees) leaves the subtree
unvisited. -/
def KdTree.add_unchecked : KdTree α → List F → α → KdTree α
  | t@(.mk l r dims cap sz minb maxb sv sd pts bkt), point, data =>
    if t.is_leaf then t.add_to_bucket (sz + 2) point data
    else
      let eb := extendBounds minb maxb point
      let t2 := KdTree.mk l r dims cap (sz + 1) eb.1 eb.2 sv sd pts bkt
      if t2.belongs_in_left point then
        match l with
        | some lc =>
          KdTree.mk (some (lc.add_unchecked point data)) r dims cap (sz + 1)
            eb.1 eb.2 sv sd pts bkt
        | none => t2
      else
        match r with
        | some rc =>
          KdTree.mk l (some (rc.add_unchecked point data)) dims cap (sz + 1)
            eb.1 eb.2 sv sd pts bkt
        | none => t2

/-- Model of `KdTree::add`. -/
def KdTree.add (t : KdTree α) (point : List F) (data : α) :
    Except ErrorKind (KdTree α) :=
  if t.capacity = 0 then .error .ZeroCapacity
  else
    match t.check_point point with
    | .error e => .error e
    | .ok _ => .ok (t.add_unchecked point data)

/-- Run a sequence of `add` calls against a tree, as a caller holding the tree
would: a failed call leaves the tree as it was.  Also counts the successful
calls. -/
def runAddsCount : KdTree α → List (List F × α) → KdTree α × Nat
  | t, [] => (t, 0)
  | t, (p, v) :: rest =>
    match t.add p v with
    | .ok t2 =>
      let res := runAddsCount t2 rest
      (res.1, res.2 + 1)
    | .error _ => runAddsCount t rest

/-- The tree obtained from a sequence of `add` calls (failures change nothing). -/
def runAdds (t : KdTree α) (l : List (List F × α)) : KdTree α :=
  (runAddsCount t l).1

/-- All points stored in a subtree, leaf buckets listed left to right. -/
def KdTree.allPoints : KdTree α → List (List F)
  | .mk l r _ _ _ _ _ _ _ pts _ =>
    pts.getD [] ++
    (match l with
     | some lc => lc.allPoints
     | none => []) ++
    (match r with
     | some rc => rc.allPoints
     | none => [])

/-- Every node of a tree: the node itself and, recursively, its children. -/
def KdTree.subtrees : KdTree α → List (KdTree α)
  | t@(.mk l r _ _ _ _ _ _ _ _ _) =>
    t ::
    ((match l with
      | some lc => lc.subtrees
      | none => []) ++
     (match r with
      | some rc => rc.subtrees
      | none => []))

/-- Weight measure used for the search loop: `1` for a leaf, one more than the
children's weights for anything else (so it is always positive). -/
def KdTree.leafCount : KdTree α → Nat
  | t@(.mk l r _ _ _ _ _ _ _ _ _) =>
    if t.is_leaf then 1
    else
      1 +
      (match l with
       | some lc => lc.leafCount
       | none => 0) +
      (match r with
       | some rc => rc.leafCount
       | none => 0)

/-- Modelled from the spec: the ordering wrapper `HeapElement` lives in
`heap_element.rs`, which is not under `src/`.  Per the spec it pairs a
distance with an opaque payload and compares by distance only (NaN distances
are a programming error, never produced from validated inputs). -/
structure HeapElement (β : Type) : Type where
  distance : F
  element : β
deriving Repr

/-- Modelled from the spec: `BinaryHeap::pop` retrieves a maximal element
(ordering by `HeapElement.distance` only).  The pop order among equal
distances is unspecified in Rust; this model retrieves the earliest-pushed
maximal element. -/
def heapPopMax : List (HeapElement β) → Option (HeapElement β × List (HeapElement β))
  | [] => none
  | e :: rest =>
    match heapPopMax rest with
    | none => some (e, [])
    | some (m, rest2) =>
      if F.lt e.distance m.distance then some (m, e :: rest2) else some (e, rest)

/-- Modelled from the spec: `BinaryHeap::peek` shows the element `pop` would
retrieve; on an empty heap (`unwrap` panic in the source, unreachable at its
call sites) the distance defaults to NaN. -/
def heapPeekDist (h : List (HeapElement β)) : F :=
  match heapPopMax h with
  | some (e, _) => e.distance
  | none => F.nan

/-- Modelled from the spec: `BinaryHeap::push`. -/
def heapPush (e : HeapElement β) (h : List (HeapElement β)) : List (HeapElement β) :=
  e :: h

/-- Insertion step of the model of `BinaryHeap::into_sorted_vec` (ascending by
distance; order among equal distances is unspecified in Rust). -/
def insertAsc (e : HeapElement β) : List (HeapElement β) → List (HeapElement β)
  | [] => [e]
  | x :: xs => if F.le e.distance x.distance then e :: x :: xs else x :: insertAsc e xs

/-- Modelled from the spec: `BinaryHeap::into_sorted_vec`, ascending by
distance. -/
def sortAsc : List (HeapElement β) → List (HeapElement β)
  | [] => []
  | x :: xs => insertAsc x (sortAsc xs)

/-- Modelled from the spec: the box-distance utility `util::distance_to_space`
(in `util.rs`, not under `src/`) returns the distance from `p` to the nearest
point of the axis-aligned box, i.e. `distance p (clamp p)` where each
coordinate of `p` is clamped into the box's interval on that axis (zero if the
point is inside the box). -/
def clampToBox : List F → List F → List F → List F
  | p :: ps, mn :: mns, mx :: mxs =>
    (if F.lt mx p then mx else if F.lt p mn then mn else p) :: clampToBox ps mns mxs
  | _, _, _ => []

/-- Modelled from the spec: `util::distance_to_space`. -/
def distance_to_space (p minb maxb : List F) (dist : List F → List F → F) : F :=
  dist p (clampToBox p minb maxb)

/-- Model of the descent loop (`while !curr.is_leaf()`) of
`KdTree::nearest_step`: walk towards the query's side, pushing the sibling
onto `pending` when its computed bound passes the `<= evaluated_dist` test.
NOTE (faithful to the source): the bound is computed from the bounding box of
`curr` — the near child just descended into — not from the `candidate`
sibling it is attached to (`util::distance_to_space(point, &*curr.min_bounds,
&*curr.max_bounds, distance)` after `curr` was reassigned).  A stem with a
missing child (`unwrap` panic in the source, unreachable from well-formed
trees) stops the descent. -/
def descendStep (dist : List F → List F → F) (point : List F) (evaluated_dist : F) :
    KdTree α → List (HeapElement (KdTree α)) →
    KdTree α × List (HeapElement (KdTree α))
  | t@(.mk l r _ _ _ _ _ _ _ _ _), pending =>
    if t.is_leaf then (t, pending)
    else
      if t.belongs_in_left point then
        match l, r with
        | some lc, some rc =>
          let cts := distance_to_space point lc.min_bounds lc.max_bounds dist
          let pending2 :=
            if F.le cts evaluated_dist then
              heapPush ⟨F.neg cts, rc⟩ pending
            else pending
          descendStep dist point evaluated_dist lc pending2
        | _, _ => (t, pending)
      else
        match l, r with
        | some lc, some rc =>
          let cts := distance_to_space point rc.min_bounds rc.max_bounds dist
          let pending2 :=
            if F.le cts evaluated_dist then
              heapPush ⟨F.neg cts, lc⟩ pending
            else pending
          descendStep dist point evaluated_dist rc pending2
        | _, _ => (t, pending)

/-- Body of the leaf-scoring loop of `KdTree::nearest_step`: one candidate is
pushed while fewer than `num` are kept, otherwise it replaces the current
worst exactly when strictly closer.  Peeking an empty `evaluated` (an
`unwrap` panic in the source, unreachable since `num >= 1` at every call)
defaults to NaN, and a failing `pop` (never happens on a non-empty heap)
discards the candidate. -/
def scoreOne (num : Nat) (e : HeapElement α) (evaluated : List (HeapElement α)) :
    List (HeapElement α) :=
  if evaluated.length < num then heapPush e evaluated
  else if F.lt e.distance (heapPeekDist evaluated) then
    match heapPopMax evaluated with
    | some (_, popped) => heapPush e popped
    | none => evaluated
  else evaluated

/-- Model of the leaf-scoring loop of `KdTree::nearest_step` (lines 121-136):
fold `scoreOne` over the (point, payload) pairs of the leaf. -/
def scoreLeaf (num : Nat) (dist : List F → List F → F) (point : List F) :
    List (List F × α) → List (HeapElement α) → List (HeapElement α)
  | [], evaluated => evaluated
  | (p, d) :: rest, evaluated =>
    scoreLeaf num dist point rest (scoreOne num ⟨dist p point, d⟩ evaluated)

/-- Model of `KdTree::nearest_step`: pop the most promising pending subtree,
descend it to a leaf, then score the leaf's bucket.  Popping an empty
`pending` (an `unwrap` panic in the source, guarded by the loop condition)
changes nothing. -/
def nearestStep (num : Nat) (dist : List F → List F → F) (point : List F)
    (pending : List (HeapElement (KdTree α))) (evaluated : List (HeapElement α)) :
    List (HeapElement (KdTree α)) × List (HeapElement α) :=
  match heapPopMax pending with
  | none => (pending, evaluated)
  | some (top, rest) =>
    let evaluated_dist :=
      if evaluated.length < num then F.inf else heapPeekDist evaluated
    let dp := descendStep dist point evaluated_dist top.element rest
    (dp.2, scoreLeaf num dist point ((dp.1.points.getD []).zip (dp.1.bucket.getD [])) evaluated)

/-- Loop condition of `KdTree::nearest`: `!pending.is_empty() &&
(evaluated.len() < num || -pending.peek().distance < evaluated.peek().distance)`. -/
def nearestCond (num : Nat) (pending : List (HeapElement (KdTree α)))
    (evaluated : List (HeapElement α)) : Bool :=
  !pending.isEmpty &&
  (decide (evaluated.length < num) ||
   F.lt (F.neg (heapPeekDist pending)) (heapPeekDist evaluated))

/-- Model of the search loop of `KdTree::nearest`.  The source loop terminates
because every iteration consumes at least one leaf; the model meters it with
`fuel` (callers pass `leafCount + 1`, which always suffices, see the lemmas
below; the `fuel = 0` branch returns `evaluated` just as an exhausted loop
does). -/
def nearestGo (num : Nat) (dist : List F → List F → F) (point : List F) :
    Nat → List (HeapElement (KdTree α)) → List (HeapElement α) → List (HeapElement α)
  | 0, _, evaluated => evaluated
  | fuel + 1, pending, evaluated =>
    if nearestCond num pending evaluated then
      let st := nearestStep num dist point pending evaluated
      nearestGo num dist point fuel st.1 st.2
    else evaluated

/-- Model of `KdTree::nearest`. -/
def KdTree.nearest (t : KdTree α) (point : List F) (num : Nat)
    (dist : List F → List F → F) : Except ErrorKind (List (F × α)) :=
  match t.check_point point with
  | .error e => .error e
  | .ok _ =>
    let num2 := min num t.size
    if num2 = 0 then .ok []
    else
      let evaluated :=
        nearestGo num2 dist point (t.leafCount + 1) [⟨F.fin 0, t⟩] []
      .ok (((sortAsc evaluated).take num2).map fun e => (e.distance, e.element))

/-- Squared Euclidean distance over the model floats (used for the concrete
runs; NaN if a coordinate pair is not finite). -/
def sqDiff (a b : F) : F :=
  match a, b with
  | .fin x, .fin y => .fin ((x - y) * (x - y))
  | _, _ => .nan

/-- Squared Euclidean distance function over points (zip semantics: extra
coordinates of the longer point are ignored, as `izip!`-style loops do). -/
def sqDist (a b : List F) : F :=
  (a.zip b).foldl (fun acc pv => F.add acc (sqDiff pv.1 pv.2)) (F.fin 0)

theorem checkCoords_ok_iff (p : List F) :
    checkCoords p = .ok () ↔ ∀ c ∈ p, c.isFinite = true := by
  induction p with
  | nil => simp [checkCoords]
  | cons c rest ih =>
    by_cases hc : c.isFinite = true
    · simp [checkCoords, hc, ih]
    · simp [checkCoords, hc]

theorem checkCoords_error (p : List F) (e : ErrorKind)
    (h : checkCoords p = .error e) : e = .NonFiniteCoordinate := by
  induction p with
  | nil => simp [checkCoords] at h
  | cons c rest ih =>
    by_cases hc : c.isFinite = true
    · simp [checkCoords, hc] at h
      exact ih h
    · simp [checkCoords, hc] at h
      exact h.symm

theorem check_point_ok_iff (t : KdTree α) (p : List F) :
    t.check_point p = .ok () ↔
      p.length = t.dimensions ∧ ∀ c ∈ p, c.isFinite = true := by
  by_cases hd : t.dimensions = p.length
  · simp [KdTree.check_point, hd, checkCoords_ok_iff]
  · simp [KdTree.check_point, hd]
    intro h
    exact absurd h.symm hd

/-- The three possible outcomes of `check_point`, with the conditions that
produce each. -/
theorem check_point_trichotomy (t : KdTree α) (p : List F) :
    (p.length ≠ t.dimensions ∧ t.check_point p = .error .WrongDimension) ∨
    (p.length = t.dimensions ∧ (¬ ∀ c ∈ p, c.isFinite = true) ∧
      t.check_point p = .error .NonFiniteCoordinate) ∨
    (p.length = t.dimensions ∧ (∀ c ∈ p, c.isFinite = true) ∧
      t.check_point p = .ok ()) := by
  by_cases hd : t.dimensions = p.length
  · by_cases hf : ∀ c ∈ p, c.isFinite = true
    · refine Or.inr (Or.inr ⟨hd.symm, hf, ?_⟩)
      rw [KdTree.check_point, if_neg (not_not_intro hd)]
      exact (checkCoords_ok_iff p).2 hf
    · refine Or.inr (Or.inl ⟨hd.symm, hf, ?_⟩)
      rw [KdTree.check_point, if_neg (not_not_intro hd)]
      rcases hcp : checkCoords p with e | u
      · rw [checkCoords_error p e hcp]
      · exact absurd ((checkCoords_ok_iff p).1 hcp) hf
  · exact Or.inl ⟨fun h => hd h.symm, by rw [KdTree.check_point, if_pos hd]⟩

/-- C8: the error taxonomy of `add`, checked in order.  `ZeroCapacity` is
returned exactly when the capacity is zero, regardless of the point; then
`WrongDimension` exactly on a length mismatch; then `NonFiniteCoordinate`
exactly when some coordinate is not finite; otherwise the call succeeds.  A
failed call leaves the caller's tree unchanged (last conjunct, phrased through
`runAdds`, which models a caller holding the tree). -/
theorem claim8_add_error_taxonomy (t : KdTree α) (p : List F) (v : α) :
    (t.add p v = .error .ZeroCapacity ↔ t.capacity = 0) ∧
    (t.capacity ≠ 0 →
      (t.add p v = .error .WrongDimension ↔ p.length ≠ t.dimensions)) ∧
    (t.capacity ≠ 0 → p.length = t.dimensions →
      (t.add p v = .error .NonFiniteCoordinate ↔ ¬ ∀ c ∈ p, c.isFinite = true)) ∧
    (t.capacity ≠ 0 → p.length = t.dimensions → (∀ c ∈ p, c.isFinite = true) →
      ∃ t2, t.add p v = .ok t2) ∧
    ((∃ e, t.add p v = .error e) → runAdds t [(p, v)] = t) := by
  by_cases hc : t.capacity = 0
  · have hadd : t.add p v = .error .ZeroCapacity := by rw [KdTree.add, if_pos hc]
    refine ⟨by simp [hadd, hc], ?_, ?_, ?_, ?_⟩
    · exact fun h => absurd hc h
    · exact fun h => absurd hc h
    · exact fun h => absurd hc h
    · intro _
      simp [runAdds, runAddsCount, hadd]
  · rcases check_point_trichotomy t p with ⟨h1, h2⟩ | ⟨h1, h2, h3⟩ | ⟨h1, h2, h3⟩
    · have hadd : t.add p v = .error .WrongDimension := by
        rw [KdTree.add, if_neg hc, h2]
      refine ⟨by simp [hadd, hc], ?_, ?_, ?_, ?_⟩
      · intro _
        simp [hadd, h1]
      · intro _ hlen
        exact absurd hlen h1
      · intro _ hlen
        exact absurd hlen h1
      · intro _
        simp [runAdds, runAddsCount, hadd]
    · have hadd : t.add p v = .error .NonFiniteCoordinate := by
        rw [KdTree.add, if_neg hc, h3]
      refine ⟨by simp [hadd, hc], ?_, ?_, ?_, ?_⟩
      · intro _
        simp [hadd, h1]
      · intro _ _
        simp [hadd, h2]
      · intro _ _ hall
        exact absurd hall h2
      · intro _
        simp [runAdds, runAddsCount, hadd]
    · have hadd : t.add p v = .ok (t.add_unchecked p v) := by
        rw [KdTree.add, if_neg hc, h3]
      refine ⟨by simp [hadd, hc], ?_, ?_, ?_, ?_⟩
      · intro _
        simp [hadd, h1]
      · intro _ _
        simp [hadd]
        exact h2
      · intro _ _ _
        exact ⟨_, hadd⟩
      · intro ⟨e, he⟩
        rw [hadd] at he
        simp at he

/-- Claim-side definition, from the words of C5: the chosen split dimension is
the first dimension index, scanning in index order and skipping NaN spreads,
whose spread `max_bounds[d] - min_bounds[d]` is not exceeded by any other
dimension's spread. -/
def specSplitDim (dims : Nat) (minb maxb : List F) : Option Nat :=
  (List.range dims).find? (fun i =>
    !(spreadAt minb maxb i).isNaN &&
    (List.range dims).all (fun j =>
      !F.lt (spreadAt minb maxb i) (spreadAt minb maxb j)))

theorem find?_range_eq_some {p : Nat → Bool} {dims d : Nat} (hd : d < dims)
    (hpd : p d = true) (hlt : ∀ i, i < d → p i = false) :
    (List.range dims).find? p = some d := by
  induction dims with
  | zero => omega
  | succ n ih =>
    rw [List.range_succ, List.find?_append]
    rcases Nat.lt_or_ge d n with h | h
    · rw [ih h]
      rfl
    · have hdn : d = n := by omega
      have hnone : (List.range n).find? p = none := by
        rw [List.find?_eq_none]
        intro x hx
        have hxn := List.mem_range.1 hx
        simp [hlt x (by omega)]
      rw [hnone]
      subst hdn
      simp [List.find?, hpd]

theorem splitDimGo_ne_none {minb maxb : List F} :
    ∀ rem dim mx b, splitDimGo minb maxb rem dim mx (some b) ≠ none := by
  intro rem
  induction rem with
  | zero => intro dim mx b; simp [splitDimGo]
  | succ n ih =>
    intro dim mx b
    simp only [splitDimGo]
    split
    · exact ih _ _ _
    · exact ih _ _ _

theorem splitDimGo_none {minb maxb : List F} :
    ∀ rem dim mx best, splitDimGo minb maxb rem dim mx best = none →
      best = none ∧ ∀ j, dim ≤ j → j < dim + rem →
        ((spreadAt minb maxb j).isNaN = true ∨ F.lt mx (spreadAt minb maxb j) = false) := by
  intro rem
  induction rem with
  | zero =>
    intro dim mx best h
    simp [splitDimGo] at h
    exact ⟨h, fun j h1 h2 => by omega⟩
  | succ n ih =>
    intro dim mx best h
    simp only [splitDimGo] at h
    split at h
    · exact absurd h (splitDimGo_ne_none _ _ _ _)
    · rename_i hcond
      obtain ⟨hb, hrest⟩ := ih _ _ _ h
      refine ⟨hb, fun j h1 h2 => ?_⟩
      rcases Nat.eq_or_lt_of_le h1 with he | hl
      · rw [← he]
        by_cases hnan : (spreadAt minb maxb dim).isNaN = true
        · exact Or.inl hnan
        · refine Or.inr ?_
          simp [hnan] at hcond
          exact hcond
      · exact hrest j hl (by omega)

/-- Full characterization of the dimension-selection loop when it produces a
dimension: that dimension's spread is positive and non-NaN, no dimension in
the scanned window strictly exceeds it, and every earlier dimension is either
NaN or strictly below it. -/
theorem splitDimGo_some {minb maxb : List F} :
    ∀ rem dim mx best d,
      (∀ j, j < dim → F.lt mx (spreadAt minb maxb j) = false) →
      mx.isNaN = false →
      (match best with
        | none => mx = F.fin 0
        | some b => b < dim ∧ mx = spreadAt minb maxb b ∧
            F.lt (F.fin 0) mx = true ∧
            ∀ j, j < b → ((spreadAt minb maxb j).isNaN = true ∨
              F.lt (spreadAt minb maxb j) mx = true)) →
      splitDimGo minb maxb rem dim mx best = some d →
      (d < dim + rem ∧ (spreadAt minb maxb d).isNaN = false ∧
        F.lt (F.fin 0) (spreadAt minb maxb d) = true ∧
        (∀ j, j < dim + rem → F.lt (spreadAt minb maxb d) (spreadAt minb maxb j) = false) ∧
        (∀ i, i < d → ((spreadAt minb maxb i).isNaN = true ∨
          F.lt (spreadAt minb maxb i) (spreadAt minb maxb d) = true))) := by
  intro rem
  induction rem with
  | zero =>
    intro dim mx best d hmx hnan hbest h
    simp [splitDimGo] at h
    subst h
    rcases hbest with ⟨hb1, hb2, hb3, hb4⟩
    subst hb2
    exact ⟨by omega, hnan, hb3, fun j hj => hmx j (by omega), hb4⟩
  | succ n ih =>
    intro dim mx best d hmx hnan hbest h
    simp only [splitDimGo] at h
    split at h
    · rename_i hcond
      simp only [Bool.and_eq_true, Bool.not_eq_true'] at hcond
      obtain ⟨hdnan, hlt⟩ := hcond
      have h0 : F.lt (F.fin 0) (spreadAt minb maxb dim) = true := by
        rcases hb : best with _ | b
        · rw [hb] at hbest
          rw [hbest] at hlt
          exact hlt
        · rw [hb] at hbest
          exact F.lt_trans hbest.2.2.1 hlt
      have key := ih (dim + 1) (spreadAt minb maxb dim) (some dim) d ?_ hdnan ?_ h
      · obtain ⟨k1, k2, k3, k4, k5⟩ := key
        exact ⟨by omega, k2, k3, fun j hj => k4 j (by omega), k5⟩
      · intro j hj
        rcases Nat.lt_or_ge j dim with hl | hg
        · by_cases hc : F.lt (spreadAt minb maxb dim) (spreadAt minb maxb j) = true
          · have := F.lt_trans hlt hc
            rw [hmx j hl] at this
            exact absurd this (by simp)
          · simpa using hc
        · have : j = dim := by omega
          subst this
          exact F.lt_irrefl _
      · refine ⟨by omega, rfl, h0, fun j hj => ?_⟩
        by_cases hnanj : (spreadAt minb maxb j).isNaN = true
        · exact Or.inl hnanj
        · refine Or.inr ?_
          have hj2 := hmx j hj
          have hle : F.le (spreadAt minb maxb j) mx = true :=
            F.le_of_not_lt (by simpa using hnanj) hnan hj2
          exact F.lt_of_le_of_lt hle hlt
    · rename_i hcond
      have key := ih (dim + 1) mx best d ?_ hnan ?_ h
      · obtain ⟨k1, k2, k3, k4, k5⟩ := key
        exact ⟨by omega, k2, k3, fun j hj => k4 j (by omega), k5⟩
      · intro j hj
        rcases Nat.lt_or_ge j dim with hl | hg
        · exact hmx j hl
        · have hjd : j = dim := by omega
          rw [hjd]
          by_cases hnanj : (spreadAt minb maxb dim).isNaN = true
          · rcases hsp : spreadAt minb maxb dim with _ | _ | _ | q
            · exact F.lt_nan_right mx
            all_goals rw [hsp] at hnanj; simp [F.isNaN] at hnanj
          · simp [hnanj] at hcond
            exact hcond
      · rcases hb : best with _ | b
        · rw [hb] at hbest
          exact hbest
        · rw [hb] at hbest
          exact ⟨by omega, hbest.2.1, hbest.2.2.1, hbest.2.2.2⟩

/-- Key consequence used by the split lemmas: when the selection loop (started
as a leaf starts it, with no previous `split_dimension`) picks `d`, the spread
on `d` is positive. -/
theorem splitDimGo_pos {minb maxb : List F} {dims d : Nat}
    (h : splitDimGo minb maxb dims 0 (F.fin 0) none = some d) :
    d < dims ∧ (spreadAt minb maxb d).isNaN = false ∧
      F.lt (F.fin 0) (spreadAt minb maxb d) = true := by
  have key := splitDimGo_some dims 0 (F.fin 0) none d
    (fun j hj => by omega) (by simp [F.isNaN]) rfl h
  exact ⟨by simpa using key.1, key.2.1, key.2.2.1⟩

/-- C5: whenever a leaf split actually occurs (the dimension-selection loop,
started with the leaf's empty `split_dimension`, picks a dimension), the
chosen dimension is the first index — scanning in index order, skipping NaN
spreads, keeping the first-found strict maximum — that maximizes
`max_bounds[d] - min_bounds[d]` (formalized by the claim-side `specSplitDim`),
and the split value stored by `split` equals
`min_bounds[d] + (max_bounds[d] - min_bounds[d]) / 2`. -/
theorem claim5_split_dimension_and_value (t : KdTree α)
    (adder : KdTree α → List F → α → KdTree α)
    (pts : List (List F)) (bkt : List α) (d : Nat)
    (hleaf : t.split_dimension = none)
    (hsplit : (t.splitWith adder pts bkt).split_dimension = some d) :
    specSplitDim t.dimensions t.min_bounds t.max_bounds = some d ∧
    (t.splitWith adder pts bkt).split_value =
      some (F.add (t.min_bounds.getD d F.nan)
        (F.div2 (F.sub (t.max_bounds.getD d F.nan) (t.min_bounds.getD d F.nan)))) := by
  obtain ⟨l, r, dims, cap, sz, minb, maxb, sv, sd, pts0, bkt0⟩ := t
  simp [KdTree.split_dimension] at hleaf
  subst hleaf
  simp only [KdTree.splitWith] at hsplit ⊢
  rcases hgo : splitDimGo minb maxb dims 0 (F.fin 0) none with _ | d2
  · rw [hgo] at hsplit
    simp [KdTree.split_dimension] at hsplit
  · rw [hgo] at hsplit
    simp only [KdTree.split_dimension] at hsplit
    have hd2 : d2 = d := by simpa using hsplit
    subst hd2
    have key := splitDimGo_some dims 0 (F.fin 0) none d2
      (fun j hj => by omega) (by simp [F.isNaN]) rfl hgo
    obtain ⟨k1, k2, _, k4, k5⟩ := key
    simp only [Nat.zero_add] at k1 k4
    constructor
    · rw [KdTree.dimensions, KdTree.min_bounds, KdTree.max_bounds]
      refine find?_range_eq_some k1 ?_ ?_
      · simp only [Bool.and_eq_true, Bool.not_eq_true', List.all_eq_true]
        refine ⟨k2, fun j hj => ?_⟩
        simp [k4 j (List.mem_range.1 hj)]
      · intro i hi
        rcases k5 i hi with hnan | hlt
        · simp [hnan]
        · have hall : (List.range dims).all (fun j =>
              !F.lt (spreadAt minb maxb i) (spreadAt minb maxb j)) = false := by
            rw [List.all_eq_false]
            exact ⟨d2, List.mem_range.2 k1, by simp [hlt]⟩
          simp [hall]
    · simp [KdTree.split_value, KdTree.min_bounds, KdTree.max_bounds]

/-- A valid coordinate vector: right length, all coordinates finite (what
`check_point` enforces). -/
def validPoint (dims : Nat) (p : List F) : Prop :=
  p.length = dims ∧ ∀ c ∈ p, c.isFinite = true

/-- The bounding box `(minb, maxb)` is exactly the coordinate-wise extrema of
`pts` on every dimension, with the `+inf`/`-inf` sentinels when `pts` is
empty. -/
def BoundsSpec (dims : Nat) (minb maxb : List F) (pts : List (List F)) : Prop :=
  minb.length = dims ∧ maxb.length = dims ∧
  (pts = [] → minb = List.replicate dims F.inf ∧ maxb = List.replicate dims F.ninf) ∧
  (pts ≠ [] → ∀ d ∈ List.range dims,
    (∃ p ∈ pts, minb.getD d F.nan = p.getD d F.nan) ∧
    (∀ p ∈ pts, F.le (minb.getD d F.nan) (p.getD d F.nan) = true) ∧
    (∃ p ∈ pts, maxb.getD d F.nan = p.getD d F.nan) ∧
    (∀ p ∈ pts, F.le (p.getD d F.nan) (maxb.getD d F.nan) = true))

/-- All points of a bucket coincide. -/
def allSame (pts : List (List F)) : Prop := ∀ p ∈ pts, ∀ q ∈ pts, p = q

/-- Well-formedness of a tree with dimension count `dims` and capacity `cap`:
exactly the states reachable by successful `add`s.  A leaf stores parallel
`points`/`bucket` lists of valid points whose length is `size`, its bounding
box is exact, and it is within capacity unless all its points coincide (the
split-abandonment escape valve).  A stem has two non-empty well-formed
children, a finite split value, an in-range split dimension, `size` the sum of
the children's, and an exact bounding box over the union of its children's
points. -/
inductive WF (dims cap : Nat) : KdTree α → Prop where
  | leaf : ∀ (sz : Nat) (minb maxb : List F) (ps : List (List F)) (bs : List α),
      sz = ps.length → sz = bs.length →
      (∀ p ∈ ps, validPoint dims p) →
      BoundsSpec dims minb maxb ps →
      (sz ≤ cap ∨ allSame ps) →
      WF dims cap (.mk none none dims cap sz minb maxb none none (some ps) (some bs))
  | stem : ∀ (lc rc : KdTree α) (sz : Nat) (minb maxb : List F) (svq : ℚ) (sd : Nat),
      sd < dims →
      WF dims cap lc → WF dims cap rc →
      sz = lc.size + rc.size → 1 ≤ lc.size → 1 ≤ rc.size →
      BoundsSpec dims minb maxb (lc.allPoints ++ rc.allPoints) →
      WF dims cap
        (.mk (some lc) (some rc) dims cap sz minb maxb (some (F.fin svq)) (some sd) none none)

theorem KdTree.size_mk (l r : Option (KdTree α)) (dims cap sz : Nat)
    (minb maxb : List F) (sv : Option F) (sd : Option Nat)
    (pts : Option (List (List F))) (bkt : Option (List α)) :
    (KdTree.mk l r dims cap sz minb maxb sv sd pts bkt).size = sz := rfl

theorem WF_size_allPoints {dims cap : Nat} {t : KdTree α} (h : WF dims cap t) :
    t.size = t.allPoints.length := by
  induction h with
  | leaf sz minb maxb ps bs hlen _ _ _ _ =>
    simp [KdTree.size_mk, KdTree.allPoints, hlen]
  | stem lc rc sz minb maxb svq sd hsd hl hr hsz h1 h2 hb ihl ihr =>
    simp [KdTree.size_mk, KdTree.allPoints, hsz, ihl, ihr]

theorem WF_allPoints_valid {dims cap : Nat} {t : KdTree α} (h : WF dims cap t) :
    ∀ p ∈ t.allPoints, validPoint dims p := by
  induction h with
  | leaf sz minb maxb ps bs _ _ hv _ _ =>
    simpa [KdTree.allPoints] using hv
  | stem lc rc sz minb maxb svq sd hsd hl hr hsz h1 h2 hb ihl ihr =>
    simp only [KdTree.allPoints]
    intro p hp
    simp at hp
    rcases hp with hp | hp
    · exact ihl p hp
    · exact ihr p hp

theorem WF_bounds {dims cap : Nat} {t : KdTree α} (h : WF dims cap t) :
    BoundsSpec dims t.min_bounds t.max_bounds t.allPoints := by
  cases h with
  | leaf sz minb maxb ps bs _ _ _ hb _ =>
    simpa [KdTree.min_bounds, KdTree.max_bounds, KdTree.allPoints] using hb
  | stem lc rc sz minb maxb svq sd hsd hl hr hsz h1 h2 hb =>
    simpa [KdTree.min_bounds, KdTree.max_bounds, KdTree.allPoints] using hb

theorem WF_subtrees {dims cap : Nat} {t : KdTree α} (h : WF dims cap t) :
    ∀ s ∈ t.subtrees, WF dims cap s := by
  induction h with
  | leaf sz minb maxb ps bs hlen hlenb hv hb hcap =>
    intro s hs
    simp [KdTree.subtrees] at hs
    subst hs
    exact WF.leaf sz minb maxb ps bs hlen hlenb hv hb hcap
  | stem lc rc sz minb maxb svq sd hsd hl hr hsz h1 h2 hb ihl ihr =>
    intro s hs
    simp [KdTree.subtrees] at hs
    rcases hs with hs | hs | hs
    · subst hs
      exact WF.stem lc rc sz minb maxb svq sd hsd hl hr hsz h1 h2 hb
    · exact ihl s hs
    · exact ihr s hs

theorem WF_dimensions {dims cap : Nat} {t : KdTree α} (h : WF dims cap t) :
    t.dimensions = dims := by
  cases h with
  | leaf sz minb maxb ps bs _ _ _ _ _ => rfl
  | stem lc rc sz minb maxb svq sd _ _ _ _ _ _ _ => rfl

theorem WF_capacity {dims cap : Nat} {t : KdTree α} (h : WF dims cap t) :
    t.capacity = cap := by
  cases h with
  | leaf sz minb maxb ps bs _ _ _ _ _ => rfl
  | stem lc rc sz minb maxb svq sd _ _ _ _ _ _ _ => rfl

theorem getD_mem_of_lt {p : List F} : ∀ {d : Nat}, d < p.length → p.getD d F.nan ∈ p := by
  induction p with
  | nil => intro d h; simp at h
  | cons a as ih =>
    intro d h
    cases d with
    | zero => simp [List.getD]
    | succ d2 =>
      have : (a :: as).getD (d2 + 1) F.nan = as.getD d2 F.nan := by simp [List.getD]
      rw [this]
      exact List.mem_cons_of_mem a (ih (by simpa using h))

theorem replicate_getD {β : Type} (x y : β) : ∀ (n d : Nat), d < n →
    (List.replicate n x).getD d y = x := by
  intro n
  induction n with
  | zero => intro d h; omega
  | succ m ih =>
    intro d h
    cases d with
    | zero => simp [List.replicate, List.getD]
    | succ d2 =>
      have : (List.replicate (m + 1) x).getD (d2 + 1) y =
          (List.replicate m x).getD d2 y := by
        simp [List.replicate, List.getD]
      rw [this]
      exact ih d2 (by omega)

theorem validPoint_coord_finite {dims : Nat} {p : List F} (hp : validPoint dims p)
    {d : Nat} (hd : d < dims) : (p.getD d F.nan).isFinite = true :=
  hp.2 _ (getD_mem_of_lt (by rw [hp.1]; exact hd))

theorem extendBounds_length (minb maxb p : List F) :
    (extendBounds minb maxb p).1.length = minb.length ∧
    (extendBounds minb maxb p).2.length = maxb.length := by
  induction minb generalizing maxb p with
  | nil => cases maxb <;> cases p <;> simp [extendBounds]
  | cons a as ih =>
    cases maxb with
    | nil => cases p <;> simp [extendBounds]
    | cons b bs =>
      cases p with
      | nil => simp [extendBounds]
      | cons c cs =>
        simp [extendBounds, (ih bs cs).1, (ih bs cs).2]

theorem extendBounds_getD (minb maxb p : List F) (d : Nat)
    (hd1 : d < minb.length) (hd2 : d < maxb.length) (hd3 : d < p.length) :
    (extendBounds minb maxb p).1.getD d F.nan =
      (if F.lt (p.getD d F.nan) (minb.getD d F.nan) then p.getD d F.nan
       else minb.getD d F.nan) ∧
    (extendBounds minb maxb p).2.getD d F.nan =
      (if F.lt (maxb.getD d F.nan) (p.getD d F.nan) then p.getD d F.nan
       else maxb.getD d F.nan) := by
  induction minb generalizing maxb p d with
  | nil => simp at hd1
  | cons a as ih =>
    cases maxb with
    | nil => simp at hd2
    | cons b bs =>
      cases p with
      | nil => simp at hd3
      | cons c cs =>
        cases d with
        | zero => simp [extendBounds]
        | succ d2 =>
          have := ih bs cs d2 (by simpa using hd1) (by simpa using hd2)
            (by simpa using hd3)
          simpa [extendBounds] using this

/-- Bounds exactness only reads the point list through membership, so it
transfers across permutations. -/
theorem BoundsSpec_perm {dims : Nat} {minb maxb : List F} {pts pts2 : List (List F)}
    (h : BoundsSpec dims minb maxb pts) (hp : List.Perm pts pts2) :
    BoundsSpec dims minb maxb pts2 := by
  obtain ⟨h1, h2, h3, h4⟩ := h
  refine ⟨h1, h2, ?_, ?_⟩
  · intro he
    refine h3 ?_
    rw [he] at hp
    exact hp.eq_nil
  · intro hne d hd
    have hne1 : pts ≠ [] := by
      intro he
      rw [he] at hp
      exact hne hp.symm.eq_nil
    obtain ⟨⟨q1, hq1, hq1e⟩, hall1, ⟨q2, hq2, hq2e⟩, hall2⟩ := h4 hne1 d hd
    exact ⟨⟨q1, hp.mem_iff.1 hq1, hq1e⟩,
      fun q hq => hall1 q (hp.mem_iff.2 hq),
      ⟨q2, hp.mem_iff.1 hq2, hq2e⟩,
      fun q hq => hall2 q (hp.mem_iff.2 hq)⟩

/-- Extending an exact bounding box with one more valid point keeps it exact
(for the bucket with that point appended). -/
theorem BoundsSpec_extend {dims : Nat} {minb maxb : List F} {pts : List (List F)}
    (h : BoundsSpec dims minb maxb pts) (hv : ∀ q ∈ pts, validPoint dims q)
    {p : List F} (hp : validPoint dims p) :
    BoundsSpec dims (extendBounds minb maxb p).1 (extendBounds minb maxb p).2
      (pts ++ [p]) := by
  obtain ⟨h1, h2, h3, h4⟩ := h
  have hlen := extendBounds_length minb maxb p
  refine ⟨by rw [hlen.1, h1], by rw [hlen.2, h2], by simp, ?_⟩
  intro _ d hd
  have hdr := List.mem_range.1 hd
  have hget := extendBounds_getD minb maxb p d (by omega) (by omega) (by rw [hp.1]; omega)
  have hpd : (p.getD d F.nan).isFinite = true := validPoint_coord_finite hp hdr
  have hpdn : (p.getD d F.nan).isNaN = false := F.isNaN_false_of_isFinite hpd
  rcases hpts : pts with _ | ⟨p0, rest⟩
  · -- first point: old bounds are the sentinels
    obtain ⟨hmin, hmax⟩ := h3 hpts
    have hmind : minb.getD d F.nan = F.inf := by
      rw [hmin]
      exact replicate_getD _ _ _ _ (by omega)
    have hmaxd : maxb.getD d F.nan = F.ninf := by
      rw [hmax]
      exact replicate_getD _ _ _ _ (by omega)
    have hltmin : F.lt (p.getD d F.nan) (minb.getD d F.nan) = true := by
      rw [hmind]
      cases hc : p.getD d F.nan <;> simp_all [F.isFinite, F.lt]
    have hltmax : F.lt (maxb.getD d F.nan) (p.getD d F.nan) = true := by
      rw [hmaxd]
      cases hc : p.getD d F.nan <;> simp_all [F.isFinite, F.lt]
    rw [hget.1, hget.2, if_pos hltmin, if_pos hltmax]
    exact ⟨⟨p, by simp, rfl⟩, by simpa using F.le_refl hpdn,
      ⟨p, by simp, rfl⟩, by simpa using F.le_refl hpdn⟩
  · -- at least one previous point
    have hne : pts ≠ [] := by rw [hpts]; simp
    rw [← hpts]
    obtain ⟨⟨q1, hq1, hq1e⟩, hall1, ⟨q2, hq2, hq2e⟩, hall2⟩ := h4 hne d hd
    have hq1fin : (minb.getD d F.nan).isFinite = true := by
      rw [hq1e]
      exact validPoint_coord_finite (hv q1 hq1) hdr
    have hq2fin : (maxb.getD d F.nan).isFinite = true := by
      rw [hq2e]
      exact validPoint_coord_finite (hv q2 hq2) hdr
    have hq1n : (minb.getD d F.nan).isNaN = false := F.isNaN_false_of_isFinite hq1fin
    have hq2n : (maxb.getD d F.nan).isNaN = false := F.isNaN_false_of_isFinite hq2fin
    constructor
    · -- min achiever
      rw [hget.1]
      by_cases hc : F.lt (p.getD d F.nan) (minb.getD d F.nan) = true
      · rw [if_pos hc]
        exact ⟨p, by simp, rfl⟩
      · rw [if_neg hc]
        exact ⟨q1, by simp [hq1], hq1e⟩
    constructor
    · -- min lower-bounds everything
      intro q hq
      rw [hget.1]
      rcases List.mem_append.1 hq with hq | hq
      · by_cases hc : F.lt (p.getD d F.nan) (minb.getD d F.nan) = true
        · rw [if_pos hc]
          exact F.le_trans (F.le_of_lt hc) (hall1 q hq)
        · rw [if_neg hc]
          exact hall1 q hq
      · have hqp : q = p := by simpa using hq
        subst hqp
        by_cases hc : F.lt (q.getD d F.nan) (minb.getD d F.nan) = true
        · rw [if_pos hc]
          exact F.le_refl hpdn
        · rw [if_neg hc]
          exact F.le_of_not_lt hq1n hpdn (by simpa using hc)
    constructor
    · -- max achiever
      rw [hget.2]
      by_cases hc : F.lt (maxb.getD d F.nan) (p.getD d F.nan) = true
      · rw [if_pos hc]
        exact ⟨p, by simp, rfl⟩
      · rw [if_neg hc]
        exact ⟨q2, by simp [hq2], hq2e⟩
    · -- max upper-bounds everything
      intro q hq
      rw [hget.2]
      rcases List.mem_append.1 hq with hq | hq
      · by_cases hc : F.lt (maxb.getD d F.nan) (p.getD d F.nan) = true
        · rw [if_pos hc]
          exact F.le_of_le_of_lt (hall2 q hq) hc
        · rw [if_neg hc]
          exact hall2 q hq
      · have hqp : q = p := by simpa using hq
        subst hqp
        by_cases hc : F.lt (maxb.getD d F.nan) (q.getD d F.nan) = true
        · rw [if_pos hc]
          exact F.le_refl hpdn
        · rw [if_neg hc]
          exact F.le_of_not_lt hpdn hq2n (by simpa using hc)

theorem splitDimGo_eq_none {minb maxb : List F} :
    ∀ rem dim mx,
      (∀ j, dim ≤ j → j < dim + rem → F.lt mx (spreadAt minb maxb j) = false) →
      splitDimGo minb maxb rem dim mx none = none := by
  intro rem
  induction rem with
  | zero => intro dim mx h; rfl
  | succ n ih =>
    intro dim mx h
    have hdim := h dim (by omega) (by omega)
    simp only [splitDimGo, hdim, Bool.and_false, if_neg (by simp : ¬(false = true))]
    exact ih (dim + 1) mx (fun j h1 h2 => h j (by omega) (by omega))

theorem allSame_mem_eq {pts : List (List F)} (hs : allSame pts) {p q : List F}
    (hp : p ∈ pts) (hq : q ∈ pts) : p = q := hs p hp q hq

/-- Over a bucket of coinciding points the exact bounding box has zero spread
on every dimension. -/
theorem allSame_spread_nonpos {dims : Nat} {minb maxb : List F} {pts : List (List F)}
    (hb : BoundsSpec dims minb maxb pts) (hs : allSame pts) (hne : pts ≠ []) :
    ∀ d, d < dims → F.lt (F.fin 0) (spreadAt minb maxb d) = false := by
  intro d hd
  obtain ⟨_, _, _, h4⟩ := hb
  obtain ⟨⟨q1, hq1, hq1e⟩, _, ⟨q2, hq2, hq2e⟩, _⟩ := h4 hne d (List.mem_range.2 hd)
  have : q1 = q2 := allSame_mem_eq hs hq1 hq2
  subst this
  rw [spreadAt, hq1e, hq2e]
  cases q1.getD d F.nan <;> simp [F.sub, F.lt]

theorem allSame_of_append_left {xs ys : List (List F)} (h : allSame (xs ++ ys)) :
    allSame xs :=
  fun p hp q hq => h p (List.mem_append_left ys hp) q (List.mem_append_left ys hq)

/-- One `add_to_bucket` call on a leaf that either stays within capacity or
holds only coinciding points: the pair is appended, the bounds extended, and
the node stays a leaf (the split is either not triggered or abandoned). -/
theorem add_to_bucket_no_split (fuel : Nat) {dims cap sz : Nat} {minb maxb : List F}
    {ps : List (List F)} {bs : List α} (p : List F) (v : α)
    (hlen : sz = ps.length) (hlenb : sz = bs.length)
    (hv : ∀ q ∈ ps, validPoint dims q) (hvp : validPoint dims p)
    (hb : BoundsSpec dims minb maxb ps)
    (hcap : sz + 1 ≤ cap ∨ allSame (ps ++ [p])) :
    KdTree.add_to_bucket (fuel + 1)
        (.mk none none dims cap sz minb maxb none none (some ps) (some bs)) p v =
      .mk none none dims cap (sz + 1) (extendBounds minb maxb p).1
        (extendBounds minb maxb p).2 none none (some (ps ++ [p]))
        (some (bs ++ [v])) := by
  simp only [KdTree.add_to_bucket, KdTree.extend, Option.getD_some]
  by_cases hover : sz + 1 > cap
  · rw [if_pos hover]
    have hsame : allSame (ps ++ [p]) := by
      rcases hcap with h | h
      · omega
      · exact h
    have hbx := BoundsSpec_extend hb hv hvp
    have hnone : splitDimGo (extendBounds minb maxb p).1 (extendBounds minb maxb p).2
        dims 0 (F.fin 0) none = none := by
      refine splitDimGo_eq_none dims 0 (F.fin 0) (fun j h1 h2 => ?_)
      exact allSame_spread_nonpos hbx hsame (by simp) j (by omega)
    simp only [KdTree.splitWith, hnone]
  · rw [if_neg hover]

/-- The pairs routed to the left child during a split. -/
def sideL (parent : KdTree α) (pairs : List (List F × α)) : List (List F × α) :=
  pairs.filter (fun pv => parent.belongs_in_left pv.1)

/-- The pairs routed to the right child during a split. -/
def sideR (parent : KdTree α) (pairs : List (List F × α)) : List (List F × α) :=
  pairs.filter (fun pv => !parent.belongs_in_left pv.1)

/-- The redistribution fold of `split`: when, on each side, the pairs that will
arrive either fit within capacity or all coincide with that side's contents,
every pair is appended to its side's leaf by `add_to_bucket` and both children
remain leaves. -/
theorem routeAll_spec (fuel : Nat) (parent : KdTree α) {dims cap : Nat}
    (adder : KdTree α → List F → α → KdTree α)
    (hadder : ∀ c q w, adder c q w = KdTree.add_to_bucket (fuel + 1) c q w) :
    ∀ (pairs : List (List F × α)) (szL szR : Nat) (mnL mxL mnR mxR : List F)
      (psL psR : List (List F)) (bsL bsR : List α),
      szL = psL.length → szL = bsL.length → szR = psR.length → szR = bsR.length →
      (∀ q ∈ psL, validPoint dims q) → (∀ q ∈ psR, validPoint dims q) →
      (∀ pv ∈ pairs, validPoint dims pv.1) →
      BoundsSpec dims mnL mxL psL → BoundsSpec dims mnR mxR psR →
      (szL + (sideL parent pairs).length ≤ cap ∨
        allSame (psL ++ (sideL parent pairs).map Prod.fst)) →
      (szR + (sideR parent pairs).length ≤ cap ∨
        allSame (psR ++ (sideR parent pairs).map Prod.fst)) →
      ∃ mnL2 mxL2 mnR2 mxR2,
        pairs.foldl
          (fun (acc : KdTree α × KdTree α) pv =>
            if parent.belongs_in_left pv.1 then (adder acc.1 pv.1 pv.2, acc.2)
            else (acc.1, adder acc.2 pv.1 pv.2))
          (.mk none none dims cap szL mnL mxL none none (some psL) (some bsL),
           .mk none none dims cap szR mnR mxR none none (some psR) (some bsR)) =
        (.mk none none dims cap (szL + (sideL parent pairs).length) mnL2 mxL2
            none none (some (psL ++ (sideL parent pairs).map Prod.fst))
            (some (bsL ++ (sideL parent pairs).map Prod.snd)),
         .mk none none dims cap (szR + (sideR parent pairs).length) mnR2 mxR2
            none none (some (psR ++ (sideR parent pairs).map Prod.fst))
            (some (bsR ++ (sideR parent pairs).map Prod.snd))) ∧
        BoundsSpec dims mnL2 mxL2 (psL ++ (sideL parent pairs).map Prod.fst) ∧
        BoundsSpec dims mnR2 mxR2 (psR ++ (sideR parent pairs).map Prod.fst) := by
  intro pairs
  induction pairs with
  | nil =>
    intro szL szR mnL mxL mnR mxR psL psR bsL bsR hl1 hl2 hr1 hr2 hvL hvR hvp hbL hbR hcL hcR
    refine ⟨mnL, mxL, mnR, mxR, ?_, by simpa [sideL] using hbL, by simpa [sideR] using hbR⟩
    simp [sideL, sideR]
  | cons pv rest ih =>
    intro szL szR mnL mxL mnR mxR psL psR bsL bsR hl1 hl2 hr1 hr2 hvL hvR hvp hbL hbR hcL hcR
    have hvpv : validPoint dims pv.1 := hvp pv (by simp)
    have hvrest : ∀ qv ∈ rest, validPoint dims qv.1 := fun qv hq => hvp qv (by simp [hq])
    by_cases hbel : parent.belongs_in_left pv.1 = true
    · have hsideL : sideL parent (pv :: rest) = pv :: sideL parent rest := by
        simp [sideL, List.filter, hbel]
      have hsideR : sideR parent (pv :: rest) = sideR parent rest := by
        simp [sideR, List.filter, hbel]
      rw [hsideL] at hcL ⊢
      rw [hsideR] at hcR ⊢
      have hstep : KdTree.add_to_bucket (fuel + 1)
          (.mk none none dims cap szL mnL mxL none none (some psL) (some bsL)) pv.1 pv.2 =
          .mk none none dims cap (szL + 1) (extendBounds mnL mxL pv.1).1
            (extendBounds mnL mxL pv.1).2 none none (some (psL ++ [pv.1]))
            (some (bsL ++ [pv.2])) := by
        refine add_to_bucket_no_split fuel pv.1 pv.2 hl1 hl2 hvL hvpv hbL ?_
        rcases hcL with h | h
        · left
          simp at h
          omega
        · right
          refine @allSame_of_append_left (psL ++ [pv.1])
            (List.map Prod.fst (sideL parent rest)) ?_
          rw [List.append_assoc]
          simpa using h
      have hbL2 := BoundsSpec_extend hbL hvL hvpv
      have hvL2 : ∀ q ∈ psL ++ [pv.1], validPoint dims q := by
        intro q hq
        rcases List.mem_append.1 hq with hq | hq
        · exact hvL q hq
        · simp at hq
          subst hq
          exact hvpv
      have key := ih (szL + 1) szR (extendBounds mnL mxL pv.1).1
        (extendBounds mnL mxL pv.1).2 mnR mxR (psL ++ [pv.1]) psR (bsL ++ [pv.2]) bsR
        (by simp [← hl1]) (by simp [← hl2]) hr1 hr2 hvL2 hvR hvrest hbL2 hbR
        ?_ ?_
      · obtain ⟨mnL2, mxL2, mnR2, mxR2, heq, hb1, hb2⟩ := key
        refine ⟨mnL2, mxL2, mnR2, mxR2, ?_, ?_, ?_⟩
        · have e1 : (pv :: sideL parent rest).length = (sideL parent rest).length + 1 := rfl
          have e2 : List.map Prod.fst (pv :: sideL parent rest) =
              pv.1 :: List.map Prod.fst (sideL parent rest) := rfl
          have e3 : List.map Prod.snd (pv :: sideL parent rest) =
              pv.2 :: List.map Prod.snd (sideL parent rest) := rfl
          rw [e1, e2, e3]
          have e4 : szL + ((sideL parent rest).length + 1) =
              szL + 1 + (sideL parent rest).length := by omega
          have e5 : psL ++ pv.1 :: List.map Prod.fst (sideL parent rest) =
              (psL ++ [pv.1]) ++ List.map Prod.fst (sideL parent rest) := by simp
          have e6 : bsL ++ pv.2 :: List.map Prod.snd (sideL parent rest) =
              (bsL ++ [pv.2]) ++ List.map Prod.snd (sideL parent rest) := by simp
          rw [e4, e5, e6, List.foldl_cons, if_pos hbel, hadder, hstep]
          exact heq
        · simpa [List.append_assoc] using hb1
        · exact hb2
      · rcases hcL with h | h
        · left
          simp at h ⊢
          omega
        · right
          rw [List.append_assoc]
          simpa using h
      · exact hcR
    · have hsideL : sideL parent (pv :: rest) = sideL parent rest := by
        simp [sideL, List.filter, hbel]
      have hsideR : sideR parent (pv :: rest) = pv :: sideR parent rest := by
        simp [sideR, List.filter, hbel]
      rw [hsideL] at hcL ⊢
      rw [hsideR] at hcR ⊢
      have hstep : KdTree.add_to_bucket (fuel + 1)
          (.mk none none dims cap szR mnR mxR none none (some psR) (some bsR)) pv.1 pv.2 =
          .mk none none dims cap (szR + 1) (extendBounds mnR mxR pv.1).1
            (extendBounds mnR mxR pv.1).2 none none (some (psR ++ [pv.1]))
            (some (bsR ++ [pv.2])) := by
        refine add_to_bucket_no_split fuel pv.1 pv.2 hr1 hr2 hvR hvpv hbR ?_
        rcases hcR with h | h
        · left
          simp at h
          omega
        · right
          refine @allSame_of_append_left (psR ++ [pv.1])
            (List.map Prod.fst (sideR parent rest)) ?_
          rw [List.append_assoc]
          simpa using h
      have hbR2 := BoundsSpec_extend hbR hvR hvpv
      have hvR2 : ∀ q ∈ psR ++ [pv.1], validPoint dims q := by
        intro q hq
        rcases List.mem_append.1 hq with hq | hq
        · exact hvR q hq
        · simp at hq
          subst hq
          exact hvpv
      have key := ih szL (szR + 1) mnL mxL (extendBounds mnR mxR pv.1).1
        (extendBounds mnR mxR pv.1).2 psL (psR ++ [pv.1]) bsL (bsR ++ [pv.2])
        hl1 hl2 (by simp [← hr1]) (by simp [← hr2]) hvL hvR2 hvrest hbL hbR2
        ?_ ?_
      · obtain ⟨mnL2, mxL2, mnR2, mxR2, heq, hb1, hb2⟩ := key
        refine ⟨mnL2, mxL2, mnR2, mxR2, ?_, ?_, ?_⟩
        · have e1 : (pv :: sideR parent rest).length = (sideR parent rest).length + 1 := rfl
          have e2 : List.map Prod.fst (pv :: sideR parent rest) =
              pv.1 :: List.map Prod.fst (sideR parent rest) := rfl
          have e3 : List.map Prod.snd (pv :: sideR parent rest) =
              pv.2 :: List.map Prod.snd (sideR parent rest) := rfl
          rw [e1, e2, e3]
          have e4 : szR + ((sideR parent rest).length + 1) =
              szR + 1 + (sideR parent rest).length := by omega
          have e5 : psR ++ pv.1 :: List.map Prod.fst (sideR parent rest) =
              (psR ++ [pv.1]) ++ List.map Prod.fst (sideR parent rest) := by simp
          have e6 : bsR ++ pv.2 :: List.map Prod.snd (sideR parent rest) =
              (bsR ++ [pv.2]) ++ List.map Prod.snd (sideR parent rest) := by simp
          rw [e4, e5, e6, List.foldl_cons, if_neg (by simp [hbel]), hadder, hstep]
          exact heq
        · exact hb1
        · simpa [List.append_assoc] using hb2
      · exact hcL
      · rcases hcR with h | h
        · left
          simp at h ⊢
          omega
        · right
          rw [List.append_assoc]
          simpa using h

theorem F.isFinite_iff {a : F} : a.isFinite = true ↔ ∃ q : ℚ, a = .fin q := by
  cases a <;> simp [F.isFinite]

theorem routeOrder_perm (l : List β) : List.Perm (routeOrder l) l := by
  cases l with
  | nil => simp [routeOrder]
  | cons x xs => simpa [routeOrder] using (List.reverse_perm xs).cons x

theorem lists_differ {p : List F} : ∀ {q : List F}, p.length = q.length → p ≠ q →
    ∃ d, d < p.length ∧ p.getD d F.nan ≠ q.getD d F.nan := by
  induction p with
  | nil =>
    intro q hl hne
    cases q with
    | nil => exact absurd rfl hne
    | cons b bs => simp at hl
  | cons a as ih =>
    intro q hl hne
    cases q with
    | nil => simp at hl
    | cons b bs =>
      by_cases hab : a = b
      · subst hab
        have hne2 : as ≠ bs := fun h => hne (by rw [h])
        obtain ⟨d, hd, hdne⟩ := ih (by simpa using hl) hne2
        refine ⟨d + 1, by simpa using hd, ?_⟩
        simpa [List.getD] using hdne
      · exact ⟨0, by simp, by simpa [List.getD] using hab⟩

theorem is_leaf_mk_leaf (dims cap sz : Nat) (minb maxb : List F)
    (ps : List (List F)) (bs : List α) :
    (KdTree.mk none none dims cap sz minb maxb none none (some ps) (some bs)).is_leaf
      = true := by
  simp [KdTree.is_leaf, KdTree.left, KdTree.right, KdTree.split_value,
    KdTree.split_dimension, KdTree.points, KdTree.bucket]

/-- If a non-empty bucket with exact bounds does not consist of coinciding
points, some dimension has strictly positive spread. -/
theorem not_allSame_exists_spread {dims : Nat} {minb maxb : List F}
    {pts : List (List F)} (hb : BoundsSpec dims minb maxb pts)
    (hv : ∀ q ∈ pts, validPoint dims q) (hns : ¬ allSame pts) :
    ∃ d, d < dims ∧ F.lt (F.fin 0) (spreadAt minb maxb d) = true := by
  simp only [allSame, not_forall] at hns
  obtain ⟨p, hp, q, hq, hpq⟩ := hns
  have hvp := hv p hp
  have hvq := hv q hq
  obtain ⟨d, hd, hdne⟩ := lists_differ (by rw [hvp.1, hvq.1]) hpq
  rw [hvp.1] at hd
  refine ⟨d, hd, ?_⟩
  have hne : pts ≠ [] := fun h => by rw [h] at hp; simp at hp
  obtain ⟨_, _, _, h4⟩ := hb
  obtain ⟨⟨q1, hq1, hq1e⟩, hall1, ⟨q2, hq2, hq2e⟩, hall2⟩ := h4 hne d (List.mem_range.2 hd)
  obtain ⟨a, ha⟩ := (@F.isFinite_iff (minb.getD d F.nan)).1
    (by rw [hq1e]; exact validPoint_coord_finite (hv q1 hq1) hd)
  obtain ⟨b, hbq⟩ := (@F.isFinite_iff (maxb.getD d F.nan)).1
    (by rw [hq2e]; exact validPoint_coord_finite (hv q2 hq2) hd)
  obtain ⟨x, hx⟩ := F.isFinite_iff.1 (validPoint_coord_finite hvp hd)
  obtain ⟨y, hy⟩ := F.isFinite_iff.1 (validPoint_coord_finite hvq hd)
  have hax : a ≤ x := by
    have := hall1 p hp
    rw [ha, hx] at this
    exact F.fin_le_fin.1 this
  have hay : a ≤ y := by
    have := hall1 q hq
    rw [ha, hy] at this
    exact F.fin_le_fin.1 this
  have hxb : x ≤ b := by
    have := hall2 p hp
    rw [hbq, hx] at this
    exact F.fin_le_fin.1 this
  have hyb : y ≤ b := by
    have := hall2 q hq
    rw [hbq, hy] at this
    exact F.fin_le_fin.1 this
  have hxy : x ≠ y := by
    intro h
    rw [hx, hy, h] at hdne
    exact hdne rfl
  rw [spreadAt, ha, hbq]
  have : a < b := by
    rcases lt_or_gt_of_ne hxy with h | h
    · linarith
    · linarith
  simp only [F.sub, F.lt]
  simpa using by linarith

/-- A bucket of coinciding points extended with a genuinely new point has two
distinct members. -/
theorem exists_ne_of_not_allSame {ps : List (List F)} {p : List F}
    (hs : allSame ps) (hns : ¬ allSame (ps ++ [p])) :
    ∃ x, x ∈ ps ∧ x ≠ p := by
  by_contra hcon
  simp only [not_exists, not_and, not_not] at hcon
  refine hns ?_
  intro u hu w hw
  rcases List.mem_append.1 hu with hu | hu <;> rcases List.mem_append.1 hw with hw | hw
  · exact hs u hu w hw
  · have := hcon u hu
    simp at hw
    rw [this, hw]
  · have := hcon w hw
    simp at hu
    rw [this, hu]
  · simp at hu hw
    rw [hu, hw]

/-- One-step unfolding of `add_to_bucket` at positive fuel (the loop body of
the source function). -/
theorem add_to_bucket_succ (fuel : Nat) (t : KdTree α) (point : List F) (data : α) :
    KdTree.add_to_bucket (fuel + 1) t point data =
      (match t.extend point with
      | .mk l r dims cap sz minb maxb sv sd pts bkt =>
        if sz + 1 > cap then
          KdTree.splitWith (fun c q w => KdTree.add_to_bucket fuel c q w)
            (.mk l r dims cap (sz + 1) minb maxb sv sd none none)
            (pts.getD [] ++ [point]) (bkt.getD [] ++ [data])
        else
          .mk l r dims cap (sz + 1) minb maxb sv sd (some (pts.getD [] ++ [point]))
            (some (bkt.getD [] ++ [data]))) := rfl

/-- One `add_to_bucket` call on a well-formed leaf preserves well-formedness,
increments `size` and appends the point (up to the reordering a successful
split performs).  When an overflow forces a successful split, both fresh
children are non-empty leaves whose sizes sum to the new bucket size. -/
theorem add_to_bucket_preserves (fuel : Nat) {dims cap sz : Nat}
    {minb maxb : List F} {ps : List (List F)} {bs : List α} (p : List F) (v : α)
    (hcap : 1 ≤ cap) (hlen : sz = ps.length) (hlenb : sz = bs.length)
    (hv : ∀ q ∈ ps, validPoint dims q) (hvp : validPoint dims p)
    (hb : BoundsSpec dims minb maxb ps)
    (hleafcap : sz ≤ cap ∨ allSame ps) :
    ∃ t2, KdTree.add_to_bucket (fuel + 2)
        (.mk none none dims cap sz minb maxb none none (some ps) (some bs)) p v = t2 ∧
      WF dims cap t2 ∧ t2.size = sz + 1 ∧ List.Perm t2.allPoints (ps ++ [p]) ∧
      (sz + 1 > cap → ¬ allSame (ps ++ [p]) →
        ∃ lc rc, t2.left = some lc ∧ t2.right = some rc ∧
          lc.is_leaf = true ∧ rc.is_leaf = true ∧
          1 ≤ lc.size ∧ 1 ≤ rc.size ∧ lc.size + rc.size = sz + 1) := by
  have hv2 : ∀ q ∈ ps ++ [p], validPoint dims q := by
    intro q hq
    rcases List.mem_append.1 hq with hq | hq
    · exact hv q hq
    · simp at hq
      subst hq
      exact hvp
  have hbx := BoundsSpec_extend hb hv hvp
  rw [show fuel + 2 = (fuel + 1) + 1 from rfl]
  by_cases hcase : sz + 1 ≤ cap ∨ allSame (ps ++ [p])
  · rw [add_to_bucket_no_split (fuel + 1) p v hlen hlenb hv hvp hb hcase]
    refine ⟨_, rfl, ?_, rfl, by simp [KdTree.allPoints], ?_⟩
    · exact WF.leaf (sz + 1) _ _ _ _ (by simp [hlen]) (by simp [hlenb]) hv2 hbx hcase
    · intro hover hns
      rcases hcase with h | h
      · omega
      · exact absurd h hns
  · push_neg at hcase
    obtain ⟨hover, hns⟩ := hcase
    rw [add_to_bucket_succ]
    simp only [KdTree.extend, Option.getD_some]
    rw [if_pos (by omega)]
    rcases hgo : splitDimGo (extendBounds minb maxb p).1 (extendBounds minb maxb p).2
        dims 0 (F.fin 0) none with _ | dsel
    · exfalso
      obtain ⟨d0, hd0, hpos⟩ := not_allSame_exists_spread hbx hv2 hns
      obtain ⟨_, hall⟩ := splitDimGo_none dims 0 (F.fin 0) none hgo
      rcases hall d0 (by omega) (by omega) with hnan | hlt
      · exact absurd hnan (by simp [(F.not_nan_of_lt hpos).2])
      · rw [hpos] at hlt
        simp at hlt
    · -- a successful split
      simp only [KdTree.splitWith, hgo]
      obtain ⟨hdsel, hnnan, hpos⟩ := splitDimGo_pos hgo
      have hne2 : ps ++ [p] ≠ [] := by simp
      obtain ⟨hbl1, hbl2, _, h4⟩ := id hbx
      obtain ⟨⟨q1, hq1, hq1e⟩, hall1, ⟨q2, hq2, hq2e⟩, hall2⟩ :=
        h4 hne2 dsel (List.mem_range.2 hdsel)
      obtain ⟨a, ha⟩ := (@F.isFinite_iff
          ((extendBounds minb maxb p).1.getD dsel F.nan)).1
        (by rw [hq1e]; exact validPoint_coord_finite (hv2 q1 hq1) hdsel)
      obtain ⟨b, hbb⟩ := (@F.isFinite_iff
          ((extendBounds minb maxb p).2.getD dsel F.nan)).1
        (by rw [hq2e]; exact validPoint_coord_finite (hv2 q2 hq2) hdsel)
      have hab : a < b := by
        rw [spreadAt, ha, hbb] at hpos
        simp [F.sub, F.lt] at hpos
        linarith
      have hsv : F.add ((extendBounds minb maxb p).1.getD dsel F.nan)
          (F.div2 (F.sub ((extendBounds minb maxb p).2.getD dsel F.nan)
            ((extendBounds minb maxb p).1.getD dsel F.nan))) =
          F.fin (a + (b - a) / 2) := by
        rw [ha, hbb]
        simp [F.add, F.sub, F.div2]
      have ham : a < a + (b - a) / 2 := by linarith
      have hmb : a + (b - a) / 2 ≤ b := by linarith
      have hlta : F.lt (F.fin a) (F.fin (a + (b - a) / 2)) = true := by
        simp only [F.lt, decide_eq_true_eq]
        linarith
      have hltb : F.lt (F.fin b) (F.fin (a + (b - a) / 2)) = false := by
        simp only [F.lt, decide_eq_false_iff_not]
        exact not_lt.2 hmb
      rw [hsv]
      have hbelongs : ∀ q : List F,
          (KdTree.mk none none dims cap (sz + 1) (extendBounds minb maxb p).1
            (extendBounds minb maxb p).2 (some (F.fin (a + (b - a) / 2)))
            (some dsel) none none : KdTree α).belongs_in_left q =
          F.lt (q.getD dsel F.nan) (F.fin (a + (b - a) / 2)) := by
        intro q
        simp [KdTree.belongs_in_left, KdTree.split_dimension, KdTree.split_value]
      have hq1coord : q1.getD dsel F.nan = F.fin a := by rw [← hq1e, ha]
      have hq2coord : q2.getD dsel F.nan = F.fin b := by rw [← hq2e, hbb]
      -- the concrete parent and pair list the code folds over
      set parent : KdTree α := KdTree.mk none none dims cap (sz + 1)
        (extendBounds minb maxb p).1 (extendBounds minb maxb p).2
        (some (F.fin (a + (b - a) / 2))) (some dsel) none none with hparent
      set pairs : List (List F × α) := routeOrder ((ps ++ [p]).zip (bs ++ [v]))
        with hpairs
      have hlenzip : ((ps ++ [p]).zip (bs ++ [v])).length = sz + 1 := by
        rw [List.length_zip]
        simp [← hlen, ← hlenb]
      have hmapfst : ((ps ++ [p]).zip (bs ++ [v])).map Prod.fst = ps ++ [p] := by
        apply List.map_fst_zip
        simp [← hlen, ← hlenb]
      have hpairsperm : List.Perm pairs ((ps ++ [p]).zip (bs ++ [v])) :=
        routeOrder_perm _
      have hmapperm : List.Perm (pairs.map Prod.fst) (ps ++ [p]) := by
        rw [← hmapfst]
        exact hpairsperm.map _
      have hvpairs : ∀ pv ∈ pairs, validPoint dims pv.1 := by
        intro pv hpv
        exact hv2 pv.1 (hmapperm.mem_iff.1 (List.mem_map_of_mem Prod.fst hpv))
      have hpairslen : pairs.length = sz + 1 := by
        rw [hpairsperm.length_eq, hlenzip]
      -- the minimum achiever goes left, the maximum achiever goes right
      obtain ⟨pv1, hpv1, hpv1e⟩ : ∃ pv ∈ pairs, pv.1 = q1 := by
        have : q1 ∈ pairs.map Prod.fst := hmapperm.mem_iff.2 hq1
        simpa [List.mem_map] using this
      obtain ⟨pv2, hpv2, hpv2e⟩ : ∃ pv ∈ pairs, pv.1 = q2 := by
        have : q2 ∈ pairs.map Prod.fst := hmapperm.mem_iff.2 hq2
        simpa [List.mem_map] using this
      have hbel1 : parent.belongs_in_left pv1.1 = true := by
        rw [hbelongs, hpv1e, hq1coord]
        exact hlta
      have hbel2 : parent.belongs_in_left pv2.1 = false := by
        rw [hbelongs, hpv2e, hq2coord]
        exact hltb
      have hmemL : pv1 ∈ sideL parent pairs :=
        List.mem_filter.2 ⟨hpv1, hbel1⟩
      have hmemR : pv2 ∈ sideR parent pairs :=
        List.mem_filter.2 ⟨hpv2, by simp [hbel2]⟩
      have hL1 : 1 ≤ (sideL parent pairs).length :=
        List.length_pos.2 (List.ne_nil_of_mem hmemL)
      have hR1 : 1 ≤ (sideR parent pairs).length :=
        List.length_pos.2 (List.ne_nil_of_mem hmemR)
      have hsplitperm : List.Perm (sideL parent pairs ++ sideR parent pairs) pairs :=
        List.filter_append_perm _ pairs
      have hpart : (sideL parent pairs).length + (sideR parent pairs).length
          = sz + 1 := by
        have := hsplitperm.length_eq
        rw [List.length_append] at this
        rw [this, hpairslen]
      -- on each side, either the count fits or everything coincides
      have hsides : ((sideL parent pairs).length ≤ cap ∨
            allSame ((sideL parent pairs).map Prod.fst)) ∧
          ((sideR parent pairs).length ≤ cap ∨
            allSame ((sideR parent pairs).map Prod.fst)) := by
        rcases hleafcap with hszcap | hsame
        · constructor
          · left
            omega
          · left
            omega
        · -- oversized coinciding bucket: one side gets the old point, the
          -- other gets the new one
          obtain ⟨x, hx, hxp⟩ := exists_ne_of_not_allSame hsame hns
          have hxval : ∀ u ∈ ps ++ [p], u = x ∨ u = p := by
            intro u hu
            rcases List.mem_append.1 hu with hu | hu
            · exact Or.inl (hsame u hu x hx)
            · simp at hu
              exact Or.inr hu
          have hbelne : parent.belongs_in_left x ≠ parent.belongs_in_left p := by
            have hq1v := hxval q1 hq1
            have hq2v := hxval q2 hq2
            have hxcoord : x.getD dsel F.nan = F.fin a ∨ x.getD dsel F.nan = F.fin b := by
              rcases hq1v with h | h
              · left
                rw [← h]
                exact hq1coord
              · rcases hq2v with h2 | h2
                · right
                  rw [← h2]
                  exact hq2coord
                · exfalso
                  rw [h] at hq1coord
                  rw [h2] at hq2coord
                  rw [hq1coord] at hq2coord
                  simp at hq2coord
                  linarith
            have hpcoord : p.getD dsel F.nan = F.fin a ∨ p.getD dsel F.nan = F.fin b := by
              rcases hq1v with h | h
              · rcases hq2v with h2 | h2
                · exfalso
                  rw [h] at hq1coord
                  rw [h2] at hq2coord
                  rw [hq1coord] at hq2coord
                  simp at hq2coord
                  linarith
                · right
                  rw [← h2]
                  exact hq2coord
              · left
                rw [← h]
                exact hq1coord
            have hxpcoordne : x.getD dsel F.nan ≠ p.getD dsel F.nan := by
              -- the two achieved values a < b are achieved one by x, one by p
              rcases hq1v with h | h <;> rcases hq2v with h2 | h2
              · exfalso
                rw [h] at hq1coord
                rw [h2] at hq2coord
                rw [hq1coord] at hq2coord
                simp at hq2coord
                linarith
              · rw [← h, ← h2, hq1coord, hq2coord]
                simp
                linarith
              · rw [← h, ← h2, hq1coord, hq2coord]
                simp
                linarith
              · exfalso
                rw [h] at hq1coord
                rw [h2] at hq2coord
                rw [hq1coord] at hq2coord
                simp at hq2coord
                linarith
            rcases hxcoord with hxc | hxc <;> rcases hpcoord with hpc | hpc
            · exact absurd (by rw [hxc, hpc]) hxpcoordne
            · rw [hbelongs, hbelongs, hxc, hpc, hlta, hltb]
              simp
            · rw [hbelongs, hbelongs, hxc, hpc, hltb, hlta]
              simp
            · exact absurd (by rw [hxc, hpc]) hxpcoordne
          constructor
          · right
            intro u hu w hw
            obtain ⟨pu, hpu, hpue⟩ := List.mem_map.1 hu
            obtain ⟨pw, hpw, hpwe⟩ := List.mem_map.1 hw
            have hub := (List.mem_filter.1 hpu).2
            have hwb := (List.mem_filter.1 hpw).2
            have hum : pu.1 ∈ ps ++ [p] :=
              hmapperm.mem_iff.1 (List.mem_map_of_mem Prod.fst
                (List.mem_of_mem_filter hpu))
            have hwm : pw.1 ∈ ps ++ [p] :=
              hmapperm.mem_iff.1 (List.mem_map_of_mem Prod.fst
                (List.mem_of_mem_filter hpw))
            rw [← hpue, ← hpwe]
            rcases hxval pu.1 hum with h | h <;> rcases hxval pw.1 hwm with h2 | h2
            · rw [h, h2]
            · exfalso
              rw [h] at hub
              rw [h2] at hwb
              exact hbelne (by rw [hub, hwb])
            · exfalso
              rw [h] at hub
              rw [h2] at hwb
              exact hbelne (by rw [hub, hwb])
            · rw [h, h2]
          · right
            intro u hu w hw
            obtain ⟨pu, hpu, hpue⟩ := List.mem_map.1 hu
            obtain ⟨pw, hpw, hpwe⟩ := List.mem_map.1 hw
            have hub := (List.mem_filter.1 hpu).2
            have hwb := (List.mem_filter.1 hpw).2
            have hum : pu.1 ∈ ps ++ [p] :=
              hmapperm.mem_iff.1 (List.mem_map_of_mem Prod.fst
                (List.mem_of_mem_filter hpu))
            have hwm : pw.1 ∈ ps ++ [p] :=
              hmapperm.mem_iff.1 (List.mem_map_of_mem Prod.fst
                (List.mem_of_mem_filter hpw))
            rw [← hpue, ← hpwe]
            simp only [Bool.not_eq_true'] at hub hwb
            rcases hxval pu.1 hum with h | h <;> rcases hxval pw.1 hwm with h2 | h2
            · rw [h, h2]
            · exfalso
              rw [h] at hub
              rw [h2] at hwb
              exact hbelne (by rw [hub, hwb])
            · exfalso
              rw [h] at hub
              rw [h2] at hwb
              exact hbelne (by rw [hub, hwb])
            · rw [h, h2]
      have hbempty : BoundsSpec dims (List.replicate dims F.inf)
          (List.replicate dims F.ninf) ([] : List (List F)) :=
        ⟨by simp, by simp, fun _ => ⟨rfl, rfl⟩, fun h => absurd rfl h⟩
      have hnw : KdTree.new_with_capacity α dims cap =
          KdTree.mk none none dims cap 0 (List.replicate dims F.inf)
            (List.replicate dims F.ninf) none none (some []) (some []) := rfl
      obtain ⟨mnL2, mxL2, mnR2, mxR2, heq, hbL2, hbR2⟩ :=
        routeAll_spec fuel parent
          (KdTree.add_to_bucket (fuel + 1))
          (fun c q w => rfl) pairs 0 0 (List.replicate dims F.inf)
          (List.replicate dims F.ninf) (List.replicate dims F.inf)
          (List.replicate dims F.ninf) [] [] [] []
          rfl rfl rfl rfl (by simp) (by simp) hvpairs hbempty hbempty
          (by simpa using hsides.1) (by simpa using hsides.2)
      rw [hnw, heq]
      simp only [List.nil_append, Nat.zero_add]
      -- the resulting stem
      have hsideLv : ∀ q ∈ (sideL parent pairs).map Prod.fst, validPoint dims q := by
        intro q hq
        obtain ⟨pu, hpu, hpue⟩ := List.mem_map.1 hq
        rw [← hpue]
        exact hvpairs pu (List.mem_of_mem_filter hpu)
      have hsideRv : ∀ q ∈ (sideR parent pairs).map Prod.fst, validPoint dims q := by
        intro q hq
        obtain ⟨pu, hpu, hpue⟩ := List.mem_map.1 hq
        rw [← hpue]
        exact hvpairs pu (List.mem_of_mem_filter hpu)
      have hwfL : WF dims cap (KdTree.mk none none dims cap
          (sideL parent pairs).length mnL2 mxL2 none none
          (some ((sideL parent pairs).map Prod.fst))
          (some ((sideL parent pairs).map Prod.snd)) : KdTree α) := by
        refine WF.leaf _ _ _ _ _ (by simp) (by simp) hsideLv
          (by simpa using hbL2) ?_
        simpa using hsides.1
      have hwfR : WF dims cap (KdTree.mk none none dims cap
          (sideR parent pairs).length mnR2 mxR2 none none
          (some ((sideR parent pairs).map Prod.fst))
          (some ((sideR parent pairs).map Prod.snd)) : KdTree α) := by
        refine WF.leaf _ _ _ _ _ (by simp) (by simp) hsideRv
          (by simpa using hbR2) ?_
        simpa using hsides.2
      have hunionperm : List.Perm
          ((sideL parent pairs).map Prod.fst ++ (sideR parent pairs).map Prod.fst)
          (ps ++ [p]) := by
        have h1 : List.Perm
            ((sideL parent pairs).map Prod.fst ++ (sideR parent pairs).map Prod.fst)
            (pairs.map Prod.fst) := by
          rw [← List.map_append]
          exact hsplitperm.map _
        exact h1.trans hmapperm
      refine ⟨_, rfl, ?_, rfl, ?_, ?_⟩
      · refine WF.stem _ _ _ _ _ _ _ hdsel hwfL hwfR ?_ ?_ ?_ ?_
        · simp [KdTree.size_mk]
          omega
        · simp [KdTree.size_mk]
          omega
        · simp [KdTree.size_mk]
          omega
        · have := BoundsSpec_perm hbx hunionperm.symm
          simpa [KdTree.allPoints] using this
      · simp only [KdTree.allPoints]
        simpa using hunionperm
      · intro _ _
        refine ⟨_, _, rfl, rfl, is_leaf_mk_leaf _ _ _ _ _ _ _,
          is_leaf_mk_leaf _ _ _ _ _ _ _, ?_, ?_, ?_⟩
        · simpa [KdTree.size_mk] using hL1
        · simpa [KdTree.size_mk] using hR1
        · simp [KdTree.size_mk]
          omega

/-- The `add_unchecked` descent preserves well-formedness, increments `size`,
and adds the point (up to the reordering a split performs). -/
theorem add_unchecked_preserves {dims cap : Nat} (hcap : 1 ≤ cap) {t : KdTree α}
    (h : WF dims cap t) : ∀ (p : List F) (v : α), validPoint dims p →
      WF dims cap (t.add_unchecked p v) ∧
      (t.add_unchecked p v).size = t.size + 1 ∧
      List.Perm (t.add_unchecked p v).allPoints (t.allPoints ++ [p]) := by
  induction h with
  | leaf sz minb maxb ps bs hlen hlenb hvps hb hleafcap =>
    intro p v hvp
    have hstep : (KdTree.mk none none dims cap sz minb maxb none none (some ps)
          (some bs) : KdTree α).add_unchecked p v =
        KdTree.add_to_bucket (sz + 2) (KdTree.mk none none dims cap sz minb maxb
          none none (some ps) (some bs)) p v := rfl
    rw [hstep]
    obtain ⟨t2, heq, hwf, hsz, hperm, _⟩ :=
      add_to_bucket_preserves sz p v hcap hlen hlenb hvps hvp hb hleafcap
    rw [heq]
    refine ⟨hwf, by rw [hsz, KdTree.size_mk], ?_⟩
    refine hperm.trans ?_
    simp [KdTree.allPoints]
  | stem lc rc sz minb maxb svq sd hsd hl hr hsz h1 h2 hb ihl ihr =>
    intro p v hvp
    have hvunion : ∀ q ∈ lc.allPoints ++ rc.allPoints, validPoint dims q := by
      intro q hq
      rcases List.mem_append.1 hq with hq | hq
      · exact WF_allPoints_valid hl q hq
      · exact WF_allPoints_valid hr q hq
    have hbx := BoundsSpec_extend hb hvunion hvp
    have hstep : (KdTree.mk (some lc) (some rc) dims cap sz minb maxb
          (some (F.fin svq)) (some sd) none none : KdTree α).add_unchecked p v =
        (if (KdTree.mk (some lc) (some rc) dims cap (sz + 1)
              (extendBounds minb maxb p).1 (extendBounds minb maxb p).2
              (some (F.fin svq)) (some sd) none none : KdTree α).belongs_in_left p
            = true then
          KdTree.mk (some (lc.add_unchecked p v)) (some rc) dims cap (sz + 1)
            (extendBounds minb maxb p).1 (extendBounds minb maxb p).2
            (some (F.fin svq)) (some sd) none none
        else
          KdTree.mk (some lc) (some (rc.add_unchecked p v)) dims cap (sz + 1)
            (extendBounds minb maxb p).1 (extendBounds minb maxb p).2
            (some (F.fin svq)) (some sd) none none) := rfl
    rw [hstep]
    by_cases hdir : (KdTree.mk (some lc) (some rc) dims cap (sz + 1)
        (extendBounds minb maxb p).1 (extendBounds minb maxb p).2
        (some (F.fin svq)) (some sd) none none : KdTree α).belongs_in_left p = true
    · rw [if_pos hdir]
      obtain ⟨hwfl, hsizel, hperml⟩ := ihl p v hvp
      have hA : List.Perm ((lc.add_unchecked p v).allPoints ++ rc.allPoints)
          ((lc.allPoints ++ [p]) ++ rc.allPoints) :=
        hperml.append_right rc.allPoints
      have hB : List.Perm ((lc.allPoints ++ [p]) ++ rc.allPoints)
          ((lc.allPoints ++ rc.allPoints) ++ [p]) := by
        rw [List.append_assoc, List.append_assoc]
        exact List.Perm.append_left _ List.perm_append_comm
      refine ⟨?_, by simp [KdTree.size_mk, hsz], ?_⟩
      · refine WF.stem _ _ _ _ _ _ _ hsd hwfl hr ?_ ?_ h2 ?_
        · rw [hsizel]
          omega
        · omega
        · exact BoundsSpec_perm hbx (hA.trans hB).symm
      · simp only [KdTree.allPoints, Option.getD_none, List.nil_append]
        refine (hA.trans hB).trans ?_
        simp [KdTree.allPoints]
    · rw [if_neg hdir]
      obtain ⟨hwfr, hsizer, hpermr⟩ := ihr p v hvp
      have hA : List.Perm (lc.allPoints ++ (rc.add_unchecked p v).allPoints)
          (lc.allPoints ++ (rc.allPoints ++ [p])) :=
        List.Perm.append_left _ hpermr
      have hB : lc.allPoints ++ (rc.allPoints ++ [p]) =
          (lc.allPoints ++ rc.allPoints) ++ [p] := by
        rw [List.append_assoc]
      refine ⟨?_, by simp [KdTree.size_mk, hsz], ?_⟩
      · refine WF.stem _ _ _ _ _ _ _ hsd hl hwfr ?_ h1 ?_ ?_
        · rw [hsizer]
          omega
        · omega
        · refine BoundsSpec_perm hbx ?_
          refine (List.Perm.refl _).trans ?_
          rw [← hB]
          exact hA.symm
      · simp only [KdTree.allPoints, Option.getD_none, List.nil_append]
        refine hA.trans ?_
        rw [hB]

/-- Every successful `add` preserves well-formedness, increments `size`, and
adds the point. -/
theorem add_preserves {dims cap : Nat} {t : KdTree α} (h : WF dims cap t)
    {p : List F} {v : α} {t2 : KdTree α} (hadd : t.add p v = .ok t2) :
    WF dims cap t2 ∧ t2.size = t.size + 1 ∧
      List.Perm t2.allPoints (t.allPoints ++ [p]) := by
  rw [KdTree.add] at hadd
  by_cases hc : t.capacity = 0
  · rw [if_pos hc] at hadd
    simp at hadd
  · rw [if_neg hc] at hadd
    rcases hcp : t.check_point p with e | u
    · rw [hcp] at hadd
      simp at hadd
    · rw [hcp] at hadd
      simp at hadd
      subst hadd
      have hcap : 1 ≤ cap := by
        have := WF_capacity h
        omega
      have hvp : validPoint dims p := by
        cases u
        have := (check_point_ok_iff t p).1 hcp
        rw [WF_dimensions h] at this
        exact ⟨this.1, this.2⟩
      exact add_unchecked_preserves hcap h p v hvp

theorem WF_new (dims cap : Nat) : WF dims cap (KdTree.new_with_capacity α dims cap) := by
  refine WF.leaf 0 _ _ [] [] rfl rfl (by simp) ?_ (Or.inl (by omega))
  exact ⟨by simp, by simp, fun _ => ⟨rfl, rfl⟩, fun h => absurd rfl h⟩

/-- Running a batch of `add`s from a well-formed tree keeps it well-formed and
grows `size` by exactly the number of successful calls. -/
theorem runAddsCount_preserves {dims cap : Nat} :
    ∀ (inputs : List (List F × α)) (t : KdTree α), WF dims cap t →
      WF dims cap (runAddsCount t inputs).1 ∧
      (runAddsCount t inputs).1.size = t.size + (runAddsCount t inputs).2 := by
  intro inputs
  induction inputs with
  | nil =>
    intro t h
    exact ⟨h, by simp [runAddsCount]⟩
  | cons pv rest ih =>
    intro t h
    rcases pv with ⟨p, v⟩
    rcases hadd : t.add p v with e | t2
    · simp only [runAddsCount, hadd]
      exact ih t h
    · obtain ⟨hwf2, hsz2, _⟩ := add_preserves h hadd
      obtain ⟨hwf3, hsz3⟩ := ih t2 hwf2
      simp only [runAddsCount, hadd]
      refine ⟨hwf3, ?_⟩
      rw [hsz3, hsz2]
      omega

theorem runAdds_WF (dims cap : Nat) (inputs : List (List F × α)) :
    WF dims cap (runAdds (KdTree.new_with_capacity α dims cap) inputs) :=
  (runAddsCount_preserves inputs _ (WF_new dims cap)).1

theorem self_mem_subtrees (t : KdTree α) : t ∈ t.subtrees := by
  obtain ⟨l, r, dims, cap, sz, minb, maxb, sv, sd, pts, bkt⟩ := t
  cases l <;> cases r <;> simp [KdTree.subtrees]

/-- C9: in every tree built by a sequence of `add` calls, every node's `size`
equals the number of (point, payload) pairs stored in its subtree, and the
root's `size` equals the number of successful inserts (failed calls are not
counted). -/
theorem claim9_size_invariant (dims cap : Nat) (inputs : List (List F × α)) :
    (∀ s ∈ (runAdds (KdTree.new_with_capacity α dims cap) inputs).subtrees,
      s.size = s.allPoints.length) ∧
    (runAdds (KdTree.new_with_capacity α dims cap) inputs).size =
      (runAddsCount (KdTree.new_with_capacity α dims cap) inputs).2 := by
  constructor
  · intro s hs
    exact WF_size_allPoints (WF_subtrees (runAdds_WF dims cap inputs) s hs)
  · have := (runAddsCount_preserves inputs
      (KdTree.new_with_capacity α dims cap) (WF_new dims cap)).2
    simpa [runAdds, KdTree.new_with_capacity, KdTree.size_mk] using this

/-- C7: in every tree built by a sequence of `add` calls, every node's
`min_bounds`/`max_bounds` are exactly the coordinate-wise minimum/maximum over
the points in its subtree (so `min_bounds[d] <= max_bounds[d]` on every
dimension once the subtree is non-empty), and they are the `+inf`/`-inf`
sentinels while the subtree is empty — in particular in a freshly created
tree. -/
theorem claim7_bounds_exact (dims cap : Nat) (inputs : List (List F × α)) :
    (∀ s ∈ (runAdds (KdTree.new_with_capacity α dims cap) inputs).subtrees,
      (s.allPoints = [] → s.min_bounds = List.replicate dims F.inf ∧
        s.max_bounds = List.replicate dims F.ninf) ∧
      (s.allPoints ≠ [] → ∀ d ∈ List.range dims,
        (∃ p ∈ s.allPoints, s.min_bounds.getD d F.nan = p.getD d F.nan) ∧
        (∀ p ∈ s.allPoints, F.le (s.min_bounds.getD d F.nan) (p.getD d F.nan) = true) ∧
        (∃ p ∈ s.allPoints, s.max_bounds.getD d F.nan = p.getD d F.nan) ∧
        (∀ p ∈ s.allPoints, F.le (p.getD d F.nan) (s.max_bounds.getD d F.nan) = true) ∧
        F.le (s.min_bounds.getD d F.nan) (s.max_bounds.getD d F.nan) = true)) ∧
    (KdTree.new_with_capacity α dims cap).min_bounds = List.replicate dims F.inf ∧
    (KdTree.new_with_capacity α dims cap).max_bounds = List.replicate dims F.ninf := by
  refine ⟨?_, rfl, rfl⟩
  intro s hs
  obtain ⟨_, _, h3, h4⟩ := WF_bounds (WF_subtrees (runAdds_WF dims cap inputs) s hs)
  refine ⟨h3, ?_⟩
  intro hne d hd
  obtain ⟨he1, ha1, he2, ha2⟩ := h4 hne d hd
  obtain ⟨q, hq, hqe⟩ := id he1
  exact ⟨he1, ha1, he2, ha2, F.le_trans (ha1 q hq) (ha2 q hq)⟩

/-- C6: after any sequence of `add` calls, every leaf holds at most `capacity`
points, except that a leaf whose points all coincide may be oversized (the
split-abandonment escape valve). -/
theorem claim6_leaf_capacity (dims cap : Nat) (inputs : List (List F × α)) :
    ∀ s ∈ (runAdds (KdTree.new_with_capacity α dims cap) inputs).subtrees,
      s.is_leaf = true →
      s.size ≤ cap ∨ ∀ p ∈ s.points.getD [], ∀ q ∈ s.points.getD [], p = q := by
  intro s hs hleaf
  have hwf := WF_subtrees (runAdds_WF dims cap inputs) s hs
  cases hwf with
  | leaf sz minb maxb ps bs hlen hlenb hv hb hcap =>
    rcases hcap with h | h
    · left
      simpa [KdTree.size_mk] using h
    · right
      simpa [KdTree.points, Option.getD_some] using h
  | stem lc rc sz minb maxb svq sd _ _ _ _ _ _ _ =>
    exfalso
    simp [KdTree.is_leaf, KdTree.left, KdTree.right, KdTree.split_value,
      KdTree.split_dimension, KdTree.points, KdTree.bucket] at hleaf

/-- The insertion sequence of the C10 counterexample: three coincident points
into a capacity-1 tree (kept as an oversized leaf), then a distinct point. -/
def c10inputs : List (List F × Nat) :=
  [([F.fin 0], 10), ([F.fin 0], 11), ([F.fin 0], 12), ([F.fin 1], 13)]

/-- C10 counterexample: after the fourth insert the root leaf splits (it
becomes a stem with `split_dimension = some 0`), but the freshly created left
child receives all three coincident points — strictly more than `capacity = 1`
— and nested (abandoned) splits fire inside it, contradicting the claim that
each fresh child of a split ends up with at most `capacity` points with no
nested split. -/
theorem claim10_counterexample :
    (runAdds (KdTree.new_with_capacity Nat 1 1) c10inputs).split_dimension = some 0 ∧
    (runAdds (KdTree.new_with_capacity Nat 1 1) c10inputs).is_leaf = false ∧
    ((runAdds (KdTree.new_with_capacity Nat 1 1) c10inputs).left.map KdTree.size) =
      some 3 ∧
    ((runAdds (KdTree.new_with_capacity Nat 1 1) c10inputs).left.map KdTree.is_leaf) =
      some true ∧
    (runAdds (KdTree.new_with_capacity Nat 1 1) c10inputs).capacity = 1 ∧
    ¬ (3 ≤ 1) := by
  norm_num [c10inputs, runAdds, runAddsCount, KdTree.add, KdTree.new_with_capacity,
    KdTree.check_point, checkCoords, KdTree.add_unchecked, KdTree.add_to_bucket,
    KdTree.is_leaf, KdTree.extend, extendBounds, KdTree.splitWith, splitDimGo,
    spreadAt, routeOrder, KdTree.belongs_in_left, KdTree.size, KdTree.left,
    KdTree.right, KdTree.points, KdTree.bucket, KdTree.split_value,
    KdTree.split_dimension, KdTree.dimensions, KdTree.capacity, KdTree.min_bounds,
    KdTree.max_bounds, F.sub, F.lt, F.le, F.add, F.div2, F.isNaN, F.isFinite,
    F.neg, List.getD, Option.map]

/-- C10 (amended): whenever a leaf split actually occurs during an insertion
into a leaf that was within capacity before the insertion (the normal case —
the counterexample shows the oversized coincident-leaf case violates the
original claim), each fresh child receives at least one and at most `capacity`
of the redistributed points, both children remain leaves, and their sizes sum
to the split bucket's size. -/
theorem claim10_amended (fuel : Nat) {dims cap sz : Nat} {minb maxb : List F}
    {ps : List (List F)} {bs : List α} (p : List F) (v : α)
    (hcap : 1 ≤ cap) (hlen : sz = ps.length) (hlenb : sz = bs.length)
    (hv : ∀ q ∈ ps, validPoint dims q) (hvp : validPoint dims p)
    (hb : BoundsSpec dims minb maxb ps) (hszcap : sz ≤ cap)
    (hsplit : (KdTree.add_to_bucket (fuel + 2)
        (.mk none none dims cap sz minb maxb none none (some ps) (some bs))
        p v).is_leaf = false) :
    ∃ lc rc,
      (KdTree.add_to_bucket (fuel + 2)
        (.mk none none dims cap sz minb maxb none none (some ps) (some bs))
        p v).left = some lc ∧
      (KdTree.add_to_bucket (fuel + 2)
        (.mk none none dims cap sz minb maxb none none (some ps) (some bs))
        p v).right = some rc ∧
      lc.is_leaf = true ∧ rc.is_leaf = true ∧
      1 ≤ lc.size ∧ lc.size ≤ cap ∧ 1 ≤ rc.size ∧ rc.size ≤ cap ∧
      lc.size + rc.size = sz + 1 := by
  obtain ⟨t2, heq, hwf, hsz2, hperm, hsplitcase⟩ :=
    add_to_bucket_preserves fuel p v hcap hlen hlenb hv hvp hb (Or.inl hszcap)
  rw [heq] at hsplit ⊢
  have hcases : sz + 1 > cap ∧ ¬ allSame (ps ++ [p]) := by
    by_contra hcon
    have hor : sz + 1 ≤ cap ∨ allSame (ps ++ [p]) := by
      by_cases h1 : sz + 1 ≤ cap
      · exact Or.inl h1
      · by_cases h2 : allSame (ps ++ [p])
        · exact Or.inr h2
        · exact absurd ⟨by omega, h2⟩ hcon
    have hns := add_to_bucket_no_split (fuel + 1) p v hlen hlenb hv hvp hb hor
    rw [show fuel + 2 = (fuel + 1) + 1 from rfl, hns] at heq
    rw [← heq, is_leaf_mk_leaf] at hsplit
    simp at hsplit
  obtain ⟨lc, rc, hleft, hright, hlleaf, hrleaf, hl1, hr1, hsum⟩ :=
    hsplitcase hcases.1 hcases.2
  exact ⟨lc, rc, hleft, hright, hlleaf, hrleaf, hl1, by omega, hr1, by omega, hsum⟩

/-- A distance function that is finite on finite inputs (true of any metric a
caller would supply, e.g. squared Euclidean; required because a NaN distance
breaks the heap ordering, which the spec calls a programming error). -/
def DistFinite (dist : List F → List F → F) : Prop :=
  ∀ a b : List F, (∀ c ∈ a, c.isFinite = true) → (∀ c ∈ b, c.isFinite = true) →
    (dist a b).isFinite = true

theorem sqDist_distFinite : DistFinite sqDist := by
  intro a b ha hb
  rw [sqDist]
  suffices h : ∀ (l : List (F × F)) (acc : F),
      (∀ pv ∈ l, pv.1.isFinite = true ∧ pv.2.isFinite = true) → acc.isFinite = true →
      (l.foldl (fun a2 pv => F.add a2 (sqDiff pv.1 pv.2)) acc).isFinite = true by
    refine h (a.zip b) (F.fin 0) ?_ (by simp [F.isFinite])
    intro pv hpv
    obtain ⟨pa, pb⟩ := pv
    have hz := List.of_mem_zip hpv
    exact ⟨ha pa hz.1, hb pb hz.2⟩
  intro l
  induction l with
  | nil =>
    intro acc _ hacc
    simpa using hacc
  | cons x xs ih =>
    intro acc hmem hacc
    simp only [List.foldl_cons]
    refine ih _ (fun pv hpv => hmem pv (by simp [hpv])) ?_
    obtain ⟨h1, h2⟩ := hmem x (by simp)
    obtain ⟨qa, hqa⟩ := F.isFinite_iff.1 h1
    obtain ⟨qb, hqb⟩ := F.isFinite_iff.1 h2
    obtain ⟨qc, hqc⟩ := F.isFinite_iff.1 hacc
    rw [hqa, hqb, hqc]
    simp [sqDiff, F.add, F.isFinite]

theorem F.neg_not_nan {a : F} (h : a.isNaN = false) : a.neg.isNaN = false := by
  cases a <;> simp_all [F.neg, F.isNaN]

/-- Sum of leaf counts of the pending subtrees: the search loop's measure. -/
def pendingWeight (pending : List (HeapElement (KdTree α))) : Nat :=
  (pending.map (fun e => e.element.leafCount)).sum

/-- Total number of stored points across the pending subtrees. -/
def pendingPoints (pending : List (HeapElement (KdTree α))) : Nat :=
  (pending.map (fun e => e.element.size)).sum

theorem leafCount_pos (t : KdTree α) : 1 ≤ t.leafCount := by
  obtain ⟨l, r, dims, cap, sz, minb, maxb, sv, sd, pts, bkt⟩ := t
  cases l <;> cases r <;> simp [KdTree.leafCount] <;> split <;> omega

theorem leafCount_of_is_leaf {t : KdTree α} (h : t.is_leaf = true) :
    t.leafCount = 1 := by
  obtain ⟨l, r, dims, cap, sz, minb, maxb, sv, sd, pts, bkt⟩ := t
  cases l <;> cases r <;> simp [KdTree.leafCount, h]

theorem heapPopMax_cons (e : HeapElement β) (es : List (HeapElement β)) :
    heapPopMax (e :: es) =
      (match heapPopMax es with
      | none => some (e, [])
      | some (m, rest2) =>
        if F.lt e.distance m.distance = true then some (m, e :: rest2)
        else some (e, es)) := rfl

theorem heapPopMax_isSome {h : List (HeapElement β)} (hne : h ≠ []) :
    ∃ m rest, heapPopMax h = some (m, rest) := by
  cases h with
  | nil => exact absurd rfl hne
  | cons e es =>
    rw [heapPopMax_cons]
    rcases h2 : heapPopMax es with _ | ⟨m2, rest2⟩
    · exact ⟨e, [], rfl⟩
    · by_cases hc : F.lt e.distance m2.distance = true
      · refine ⟨m2, e :: rest2, ?_⟩
        show (if F.lt e.distance m2.distance = true then some (m2, e :: rest2)
          else some (e, es)) = some (m2, e :: rest2)
        rw [if_pos hc]
      · refine ⟨e, es, ?_⟩
        show (if F.lt e.distance m2.distance = true then some (m2, e :: rest2)
          else some (e, es)) = some (e, es)
        rw [if_neg hc]

theorem heapPopMax_perm :
    ∀ {h : List (HeapElement β)} {m : HeapElement β} {rest : List (HeapElement β)},
      heapPopMax h = some (m, rest) → List.Perm h (m :: rest) := by
  intro h
  induction h with
  | nil =>
    intro m rest hpop
    simp [heapPopMax] at hpop
  | cons e es ih =>
    intro m rest hpop
    rw [heapPopMax_cons] at hpop
    rcases hrec : heapPopMax es with _ | ⟨m2, rest2⟩ <;> rw [hrec] at hpop
    · have hes : es = [] := by
        cases es with
        | nil => rfl
        | cons f fs =>
          obtain ⟨m3, r3, h3⟩ := @heapPopMax_isSome _ (f :: fs) (by simp)
          rw [h3] at hrec
          simp at hrec
      subst hes
      simp at hpop
      rw [hpop.1, ← hpop.2]
    · have hpop2 : (if F.lt e.distance m2.distance = true
          then some (m2, e :: rest2) else some (e, es)) = some (m, rest) := hpop
      by_cases hc : F.lt e.distance m2.distance = true
      · rw [if_pos hc] at hpop2
        simp at hpop2
        obtain ⟨h1, h2⟩ := hpop2
        rw [← h2, ← h1]
        exact ((ih hrec).cons e).trans (List.Perm.swap m2 e rest2)
      · rw [if_neg hc] at hpop2
        simp at hpop2
        rw [hpop2.1, ← hpop2.2]

theorem allFinite_of_getD {l : List F} :
    (∀ i, i < l.length → (l.getD i F.nan).isFinite = true) →
    ∀ c ∈ l, c.isFinite = true := by
  induction l with
  | nil =>
    intro _ c hc
    simp at hc
  | cons a as ih =>
    intro h c hc
    rcases List.mem_cons.1 hc with hc | hc
    · subst hc
      exact h 0 (by simp)
    · refine ih (fun i hi => ?_) c hc
      have := h (i + 1) (by simpa using hi)
      simpa [List.getD] using this

theorem WF_bounds_all_finite {dims cap : Nat} {t : KdTree α} (h : WF dims cap t)
    (hsz : 1 ≤ t.size) :
    (∀ c ∈ t.min_bounds, c.isFinite = true) ∧
    (∀ c ∈ t.max_bounds, c.isFinite = true) := by
  obtain ⟨h1, h2, h3, h4⟩ := WF_bounds h
  have hne : t.allPoints ≠ [] := by
    have hsp := WF_size_allPoints h
    intro he
    rw [he] at hsp
    simp at hsp
    omega
  have hv := WF_allPoints_valid h
  constructor
  · refine allFinite_of_getD (fun i hi => ?_)
    obtain ⟨⟨q, hq, hqe⟩, _, _, _⟩ := h4 hne i (List.mem_range.2 (by omega))
    rw [hqe]
    exact validPoint_coord_finite (hv q hq) (by omega)
  · refine allFinite_of_getD (fun i hi => ?_)
    obtain ⟨_, _, ⟨q, hq, hqe⟩, _⟩ := h4 hne i (List.mem_range.2 (by omega))
    rw [hqe]
    exact validPoint_coord_finite (hv q hq) (by omega)

theorem clampToBox_all_finite :
    ∀ (p mn mx : List F), (∀ c ∈ p, c.isFinite = true) →
      (∀ c ∈ mn, c.isFinite = true) → (∀ c ∈ mx, c.isFinite = true) →
      ∀ c ∈ clampToBox p mn mx, c.isFinite = true := by
  intro p
  induction p with
  | nil =>
    intro mn mx _ _ _ c hc
    simp [clampToBox] at hc
  | cons a as ih =>
    intro mn mx hp hmn hmx c hc
    cases mn with
    | nil => simp [clampToBox] at hc
    | cons b bs =>
      cases mx with
      | nil => simp [clampToBox] at hc
      | cons d ds =>
        simp only [clampToBox] at hc
        rcases List.mem_cons.1 hc with hc | hc
        · subst hc
          by_cases h1 : F.lt d a = true
          · rw [if_pos h1]
            exact hmx d (by simp)
          · rw [if_neg h1]
            by_cases h2 : F.lt a b = true
            · rw [if_pos h2]
              exact hmn b (by simp)
            · rw [if_neg h2]
              exact hp a (by simp)
        · exact ih bs ds (fun c2 hc2 => hp c2 (by simp [hc2]))
            (fun c2 hc2 => hmn c2 (by simp [hc2]))
            (fun c2 hc2 => hmx c2 (by simp [hc2])) c hc

theorem is_leaf_mk_stem (lc rc : KdTree α) (dims cap sz : Nat) (minb maxb : List F)
    (sv : F) (sd : Nat) :
    (KdTree.mk (some lc) (some rc) dims cap sz minb maxb (some sv) (some sd)
      none none).is_leaf = false := by
  simp [KdTree.is_leaf, KdTree.left, KdTree.right, KdTree.split_value,
    KdTree.split_dimension, KdTree.points, KdTree.bucket]

theorem leafCount_mk_stem (lc rc : KdTree α) (dims cap sz : Nat) (minb maxb : List F)
    (sv : F) (sd : Nat) :
    (KdTree.mk (some lc) (some rc) dims cap sz minb maxb (some sv) (some sd)
      none none).leafCount = 1 + lc.leafCount + rc.leafCount := by
  simp [KdTree.leafCount, is_leaf_mk_stem]

/-- The descent phase of `nearest_step` on a well-formed non-empty subtree:
it reaches a well-formed non-empty leaf, pushes some well-formed non-empty
siblings with non-NaN (negated) bounds, consumes at least one unit of the
leaf-count measure, and — when no pruning can fire (`evaluated_dist = inf`) —
the pushed subtrees and the reached leaf exactly partition the subtree's
points. -/
theorem descendStep_spec {dims cap : Nat} {dist : List F → List F → F}
    {point : List F} (hpt : validPoint dims point) (hdist : DistFinite dist)
    (ed : F) {t : KdTree α} (h : WF dims cap t) :
    1 ≤ t.size →
    ∀ (pending : List (HeapElement (KdTree α))),
      ∃ (lf : KdTree α) (pushed : List (HeapElement (KdTree α))),
        descendStep dist point ed t pending = (lf, pushed ++ pending) ∧
        lf.is_leaf = true ∧ WF dims cap lf ∧ 1 ≤ lf.size ∧
        (∀ e ∈ pushed, WF dims cap e.element ∧ 1 ≤ e.element.size ∧
          e.distance.isNaN = false) ∧
        (pushed.map (fun e => e.element.leafCount)).sum + 1 ≤ t.leafCount ∧
        (ed = F.inf →
          List.Perm ((pushed.map (fun e => e.element.allPoints)).join ++ lf.allPoints)
            t.allPoints) := by
  induction h with
  | leaf sz minb maxb ps bs hlen hlenb hv hb hcap =>
    intro hsz pending
    refine ⟨_, [], rfl, is_leaf_mk_leaf _ _ _ _ _ _ _,
      WF.leaf sz minb maxb ps bs hlen hlenb hv hb hcap, hsz, by simp, ?_, ?_⟩
    · rw [leafCount_of_is_leaf (is_leaf_mk_leaf _ _ _ _ _ _ _)]
      simp
    · intro _
      simp
  | stem lc rc sz minb maxb svq sd hsd hl hr hszeq h1 h2 hb ihl ihr =>
    intro hsz pending
    have hstemall : (KdTree.mk (some lc) (some rc) dims cap sz minb maxb
        (some (F.fin svq)) (some sd) none none : KdTree α).allPoints =
        lc.allPoints ++ rc.allPoints := by
      simp [KdTree.allPoints]
    by_cases hbel : (KdTree.mk (some lc) (some rc) dims cap sz minb maxb
        (some (F.fin svq)) (some sd) none none : KdTree α).belongs_in_left point = true
    · -- near = left child, candidate = right child; bound from the LEFT box
      have hboundfin : (distance_to_space point lc.min_bounds lc.max_bounds
          dist).isFinite = true := by
        rw [distance_to_space]
        exact hdist _ _ hpt.2 (clampToBox_all_finite _ _ _ hpt.2
          (WF_bounds_all_finite hl h1).1 (WF_bounds_all_finite hl h1).2)
      have hstep : descendStep dist point ed
          (KdTree.mk (some lc) (some rc) dims cap sz minb maxb (some (F.fin svq))
            (some sd) none none : KdTree α) pending =
          descendStep dist point ed lc
            ((if F.le (distance_to_space point lc.min_bounds lc.max_bounds dist) ed
                = true then
              [(⟨F.neg (distance_to_space point lc.min_bounds lc.max_bounds dist), rc⟩ :
                HeapElement (KdTree α))]
            else []) ++ pending) := by
        rw [descendStep]
        rw [if_neg (by rw [is_leaf_mk_stem]; simp), if_pos hbel]
        show descendStep dist point ed lc
            (if F.le (distance_to_space point lc.min_bounds lc.max_bounds dist) ed
                = true then
              heapPush ⟨F.neg (distance_to_space point lc.min_bounds lc.max_bounds dist),
                rc⟩ pending
            else pending) = _
        by_cases hc : F.le (distance_to_space point lc.min_bounds lc.max_bounds dist)
            ed = true
        · rw [if_pos hc, if_pos hc]
          rfl
        · rw [if_neg hc, if_neg hc]
          rfl
      obtain ⟨lf, pushed2, heq2, hlfleaf, hlfwf, hlfsz, hgood2, hw2, hperm2⟩ :=
        ihl h1 ((if F.le (distance_to_space point lc.min_bounds lc.max_bounds dist) ed
            = true then
          [(⟨F.neg (distance_to_space point lc.min_bounds lc.max_bounds dist), rc⟩ :
            HeapElement (KdTree α))]
        else []) ++ pending)
      refine ⟨lf, pushed2 ++ (if F.le (distance_to_space point lc.min_bounds
          lc.max_bounds dist) ed = true then
        [(⟨F.neg (distance_to_space point lc.min_bounds lc.max_bounds dist), rc⟩ :
          HeapElement (KdTree α))]
      else []), ?_, hlfleaf, hlfwf, hlfsz, ?_, ?_, ?_⟩
      · rw [hstep, heq2, List.append_assoc]
      · intro e he
        rcases List.mem_append.1 he with he | he
        · exact hgood2 e he
        · split at he
          · simp at he
            subst he
            exact ⟨hr, h2, F.neg_not_nan (F.isNaN_false_of_isFinite hboundfin)⟩
          · simp at he
      · rw [leafCount_mk_stem]
        have hcand : ((if F.le (distance_to_space point lc.min_bounds lc.max_bounds
            dist) ed = true then
          [(⟨F.neg (distance_to_space point lc.min_bounds lc.max_bounds dist), rc⟩ :
            HeapElement (KdTree α))]
          else []).map (fun e => e.element.leafCount)).sum ≤ rc.leafCount := by
          split
          · simp
          · simp
        rw [List.map_append, List.sum_append]
        omega
      · intro hinf
        subst hinf
        rw [if_pos (F.le_inf (F.isNaN_false_of_isFinite hboundfin))]
        rw [hstemall]
        have hjoin : ((pushed2 ++ [(⟨F.neg (distance_to_space point lc.min_bounds
            lc.max_bounds dist), rc⟩ : HeapElement (KdTree α))]).map
              (fun e => e.element.allPoints)).join =
            (pushed2.map (fun e => e.element.allPoints)).join ++ rc.allPoints := by
          simp [List.join]
        rw [hjoin, List.append_assoc]
        refine ((List.Perm.append_left _ List.perm_append_comm).trans ?_)
        rw [← List.append_assoc]
        exact (hperm2 rfl).append_right rc.allPoints
    · -- near = right child, candidate = left child; bound from the RIGHT box
      have hboundfin : (distance_to_space point rc.min_bounds rc.max_bounds
          dist).isFinite = true := by
        rw [distance_to_space]
        exact hdist _ _ hpt.2 (clampToBox_all_finite _ _ _ hpt.2
          (WF_bounds_all_finite hr h2).1 (WF_bounds_all_finite hr h2).2)
      have hstep : descendStep dist point ed
          (KdTree.mk (some lc) (some rc) dims cap sz minb maxb (some (F.fin svq))
            (some sd) none none : KdTree α) pending =
          descendStep dist point ed rc
            ((if F.le (distance_to_space point rc.min_bounds rc.max_bounds dist) ed
                = true then
              [(⟨F.neg (distance_to_space point rc.min_bounds rc.max_bounds dist), lc⟩ :
                HeapElement (KdTree α))]
            else []) ++ pending) := by
        rw [descendStep]
        rw [if_neg (by rw [is_leaf_mk_stem]; simp), if_neg hbel]
        show descendStep dist point ed rc
            (if F.le (distance_to_space point rc.min_bounds rc.max_bounds dist) ed
                = true then
              heapPush ⟨F.neg (distance_to_space point rc.min_bounds rc.max_bounds dist),
                lc⟩ pending
            else pending) = _
        by_cases hc : F.le (distance_to_space point rc.min_bounds rc.max_bounds dist)
            ed = true
        · rw [if_pos hc, if_pos hc]
          rfl
        · rw [if_neg hc, if_neg hc]
          rfl
      obtain ⟨lf, pushed2, heq2, hlfleaf, hlfwf, hlfsz, hgood2, hw2, hperm2⟩ :=
        ihr h2 ((if F.le (distance_to_space point rc.min_bounds rc.max_bounds dist) ed
            = true then
          [(⟨F.neg (distance_to_space point rc.min_bounds rc.max_bounds dist), lc⟩ :
            HeapElement (KdTree α))]
        else []) ++ pending)
      refine ⟨lf, pushed2 ++ (if F.le (distance_to_space point rc.min_bounds
          rc.max_bounds dist) ed = true then
        [(⟨F.neg (distance_to_space point rc.min_bounds rc.max_bounds dist), lc⟩ :
          HeapElement (KdTree α))]
      else []), ?_, hlfleaf, hlfwf, hlfsz, ?_, ?_, ?_⟩
      · rw [hstep, heq2, List.append_assoc]
      · intro e he
        rcases List.mem_append.1 he with he | he
        · exact hgood2 e he
        · split at he
          · simp at he
            subst he
            exact ⟨hl, h1, F.neg_not_nan (F.isNaN_false_of_isFinite hboundfin)⟩
          · simp at he
      · rw [leafCount_mk_stem]
        have hcand : ((if F.le (distance_to_space point rc.min_bounds rc.max_bounds
            dist) ed = true then
          [(⟨F.neg (distance_to_space point rc.min_bounds rc.max_bounds dist), lc⟩ :
            HeapElement (KdTree α))]
          else []).map (fun e => e.element.leafCount)).sum ≤ lc.leafCount := by
          split
          · simp
          · simp
        rw [List.map_append, List.sum_append]
        omega
      · intro hinf
        subst hinf
        rw [if_pos (F.le_inf (F.isNaN_false_of_isFinite hboundfin))]
        rw [hstemall]
        have hjoin : ((pushed2 ++ [(⟨F.neg (distance_to_space point rc.min_bounds
            rc.max_bounds dist), lc⟩ : HeapElement (KdTree α))]).map
              (fun e => e.element.allPoints)).join =
            (pushed2.map (fun e => e.element.allPoints)).join ++ lc.allPoints := by
          simp [List.join]
        rw [hjoin, List.append_assoc]
        refine (List.Perm.append_left _ List.perm_append_comm).trans ?_
        rw [← List.append_assoc]
        exact ((hperm2 rfl).append_right lc.allPoints).trans List.perm_append_comm

theorem WF_leaf_shape {dims cap : Nat} {t : KdTree α} (h : WF dims cap t)
    (hleaf : t.is_leaf = true) :
    ∃ ps bs, t.points = some ps ∧ t.bucket = some bs ∧
      ps.length = t.size ∧ bs.length = t.size ∧ t.allPoints = ps := by
  cases h with
  | leaf sz minb maxb ps bs hlen hlenb hv hb hcap =>
    refine ⟨ps, bs, rfl, rfl, ?_, ?_, ?_⟩
    · rw [KdTree.size_mk]
      exact hlen.symm
    · rw [KdTree.size_mk]
      exact hlenb.symm
    · simp [KdTree.allPoints]
  | stem lc rc sz minb maxb svq sd hsd hl hr hszeq h1 h2 hb =>
    rw [is_leaf_mk_stem] at hleaf
    exact absurd hleaf (by simp)

theorem scoreOne_lt (num : Nat) (e : HeapElement α) (evaluated : List (HeapElement α))
    (h : evaluated.length < num) : scoreOne num e evaluated = e :: evaluated := by
  rw [scoreOne, if_pos h]
  rfl

theorem scoreOne_length (num : Nat) (e : HeapElement α)
    (evaluated : List (HeapElement α)) (h : evaluated.length ≤ num) :
    (scoreOne num e evaluated).length = min (evaluated.length + 1) num := by
  rw [scoreOne]
  by_cases hlt : evaluated.length < num
  · rw [if_pos hlt]
    simp [heapPush]
    omega
  · rw [if_neg hlt]
    have hlen : evaluated.length = num := by omega
    by_cases hc : F.lt e.distance (heapPeekDist evaluated) = true
    · rw [if_pos hc]
      cases h2 : heapPopMax evaluated with
      | none =>
        show evaluated.length = min (evaluated.length + 1) num
        omega
      | some pr =>
        obtain ⟨m, popped⟩ := pr
        have hp : evaluated.length = popped.length + 1 := by
          have := (heapPopMax_perm h2).length_eq
          simpa using this
        show (heapPush e popped).length = min (evaluated.length + 1) num
        simp [heapPush]
        omega
    · rw [if_neg hc]
      omega

theorem scoreOne_nonnan (num : Nat) (e : HeapElement α)
    (evaluated : List (HeapElement α)) (he : e.distance.isNaN = false)
    (hev : ∀ x ∈ evaluated, x.distance.isNaN = false) :
    ∀ x ∈ scoreOne num e evaluated, x.distance.isNaN = false := by
  intro x hx
  rw [scoreOne] at hx
  by_cases hlt : evaluated.length < num
  · rw [if_pos hlt] at hx
    have hx2 : x ∈ e :: evaluated := hx
    rcases List.mem_cons.1 hx2 with h | h
    · rw [h]
      exact he
    · exact hev x h
  · rw [if_neg hlt] at hx
    by_cases hc : F.lt e.distance (heapPeekDist evaluated) = true
    · rw [if_pos hc] at hx
      cases h2 : heapPopMax evaluated with
      | none =>
        rw [h2] at hx
        have hx2 : x ∈ evaluated := hx
        exact hev x hx2
      | some pr =>
        obtain ⟨m, popped⟩ := pr
        rw [h2] at hx
        have hx2 : x ∈ e :: popped := hx
        rcases List.mem_cons.1 hx2 with h | h
        · rw [h]
          exact he
        · exact hev x ((heapPopMax_perm h2).mem_iff.2 (List.mem_cons_of_mem m h))
    · rw [if_neg hc] at hx
      exact hev x hx

theorem scoreLeaf_full (num : Nat) (dist : List F → List F → F) (point : List F) :
    ∀ (prs : List (List F × α)) (evaluated : List (HeapElement α)),
      evaluated.length + prs.length ≤ num →
      scoreLeaf num dist point prs evaluated =
        (prs.map (fun pr => (⟨dist pr.1 point, pr.2⟩ : HeapElement α))).reverse ++
          evaluated := by
  intro prs
  induction prs with
  | nil =>
    intro evaluated _
    simp [scoreLeaf]
  | cons pr rest ih =>
    intro evaluated hle
    obtain ⟨p, d⟩ := pr
    simp only [List.length_cons] at hle
    rw [scoreLeaf]
    rw [scoreOne_lt _ _ _ (by omega)]
    rw [ih (⟨dist p point, d⟩ :: evaluated) (by simp; omega)]
    simp

theorem scoreLeaf_length (num : Nat) (dist : List F → List F → F) (point : List F) :
    ∀ (prs : List (List F × α)) (evaluated : List (HeapElement α)),
      evaluated.length ≤ num →
      (scoreLeaf num dist point prs evaluated).length =
        min (evaluated.length + prs.length) num := by
  intro prs
  induction prs with
  | nil =>
    intro evaluated h
    simp [scoreLeaf]
    omega
  | cons pr rest ih =>
    intro evaluated h
    obtain ⟨p, d⟩ := pr
    rw [scoreLeaf]
    rw [ih _ (by rw [scoreOne_length _ _ _ h]; omega)]
    rw [scoreOne_length _ _ _ h]
    simp only [List.length_cons]
    omega

theorem scoreLeaf_nonnan (num : Nat) (dist : List F → List F → F) (point : List F) :
    ∀ (prs : List (List F × α)) (evaluated : List (HeapElement α)),
      (∀ x ∈ evaluated, x.distance.isNaN = false) →
      (∀ pr ∈ prs, (dist pr.1 point).isNaN = false) →
      ∀ x ∈ scoreLeaf num dist point prs evaluated, x.distance.isNaN = false := by
  intro prs
  induction prs with
  | nil =>
    intro evaluated hev _
    simpa [scoreLeaf] using hev
  | cons pr rest ih =>
    intro evaluated hev hprs
    obtain ⟨p, d⟩ := pr
    rw [scoreLeaf]
    refine ih _ ?_ (fun pr2 hpr2 => hprs pr2 (List.mem_cons_of_mem _ hpr2))
    exact scoreOne_nonnan _ _ _ (hprs (p, d) (by simp)) hev

theorem joinmap_append {β γ : Type} (g : β → List γ) (a b : List β) :
    ((a ++ b).map g).join = (a.map g).join ++ (b.map g).join := by
  simp [List.join]

theorem joinmap_cons {β γ : Type} (g : β → List γ) (x : β) (a : List β) :
    ((x :: a).map g).join = g x ++ (a.map g).join := by
  simp [List.join]

theorem length_joinmap {β γ : Type} (g : β → List γ) (a : List β) :
    ((a.map g).join).length = (a.map (fun x => (g x).length)).sum := by
  simp [List.join]
  rfl

theorem perm_join_map {β γ : Type} (g : β → List γ) {l₁ l₂ : List β}
    (h : List.Perm l₁ l₂) :
    List.Perm ((l₁.map g).join) ((l₂.map g).join) := by
  induction h with
  | nil => exact List.Perm.refl _
  | cons x h2 ih =>
    rw [joinmap_cons, joinmap_cons]
    exact ih.append_left (g x)
  | swap x y l =>
    rw [joinmap_cons, joinmap_cons, joinmap_cons, joinmap_cons]
    rw [← List.append_assoc, ← List.append_assoc]
    exact List.Perm.append_right _ List.perm_append_comm
  | trans h1 h2 ih1 ih2 => exact ih1.trans ih2

theorem pendingWeight_append (a b : List (HeapElement (KdTree α))) :
    pendingWeight (a ++ b) = pendingWeight a + pendingWeight b := by
  simp [pendingWeight]

theorem pendingWeight_cons (e : HeapElement (KdTree α))
    (a : List (HeapElement (KdTree α))) :
    pendingWeight (e :: a) = e.element.leafCount + pendingWeight a := by
  simp [pendingWeight]

theorem pendingWeight_perm {a b : List (HeapElement (KdTree α))}
    (h : List.Perm a b) : pendingWeight a = pendingWeight b :=
  (h.map _).sum_eq

theorem pendingPoints_append (a b : List (HeapElement (KdTree α))) :
    pendingPoints (a ++ b) = pendingPoints a + pendingPoints b := by
  simp [pendingPoints]

theorem pendingPoints_cons (e : HeapElement (KdTree α))
    (a : List (HeapElement (KdTree α))) :
    pendingPoints (e :: a) = e.element.size + pendingPoints a := by
  simp [pendingPoints]

theorem pendingPoints_perm {a b : List (HeapElement (KdTree α))}
    (h : List.Perm a b) : pendingPoints a = pendingPoints b :=
  (h.map _).sum_eq

theorem nearestStep_pop {pending : List (HeapElement (KdTree α))}
    {top : HeapElement (KdTree α)} {rest : List (HeapElement (KdTree α))}
    (hpop : heapPopMax pending = some (top, rest)) (num : Nat)
    (dist : List F → List F → F) (point : List F)
    (evaluated : List (HeapElement α)) :
    nearestStep num dist point pending evaluated =
      ((descendStep dist point
          (if evaluated.length < num then F.inf else heapPeekDist evaluated)
          top.element rest).2,
       scoreLeaf num dist point
         (((descendStep dist point
             (if evaluated.length < num then F.inf else heapPeekDist evaluated)
             top.element rest).1.points.getD []).zip
           ((descendStep dist point
             (if evaluated.length < num then F.inf else heapPeekDist evaluated)
             top.element rest).1.bucket.getD []))
         evaluated) := by
  rw [nearestStep, hpop]

/-- The search loop with `num` equal to the remaining point budget: while the
kept candidates plus the points still pending always add up to exactly `num`,
no pruning can fire, and the loop returns one candidate per stored point —
the distances of the result are a permutation of the distances to every
point in the pending subtrees plus those already evaluated. -/
theorem nearestGo_full {dims cap : Nat} {dist : List F → List F → F}
    {point : List F} (hpt : validPoint dims point) (hdist : DistFinite dist)
    (num : Nat) :
    ∀ (fuel : Nat) (pending : List (HeapElement (KdTree α)))
      (evaluated : List (HeapElement α)),
      pendingWeight pending < fuel →
      (∀ e ∈ pending, WF dims cap e.element ∧ 1 ≤ e.element.size) →
      evaluated.length + pendingPoints pending = num →
      List.Perm
        ((nearestGo num dist point fuel pending evaluated).map
          (fun e => e.distance))
        (evaluated.map (fun e => e.distance) ++
          ((pending.map (fun e => e.element.allPoints)).join.map
            (fun p => dist p point))) := by
  intro fuel
  induction fuel with
  | zero =>
    intro pending evaluated hw _ _
    exact absurd hw (Nat.not_lt_zero _)
  | succ fuel ih =>
    intro pending evaluated hw hwf hcount
    by_cases hcond : nearestCond num pending evaluated = true
    · have hne : pending ≠ [] := by
        intro h
        subst h
        simp [nearestCond] at hcond
      obtain ⟨top, rest, hpop⟩ := heapPopMax_isSome hne
      have hpp : List.Perm pending (top :: rest) := heapPopMax_perm hpop
      have htop : WF dims cap top.element ∧ 1 ≤ top.element.size :=
        hwf top (hpp.mem_iff.2 (by simp))
      have hppsplit : pendingPoints pending =
          top.element.size + pendingPoints rest := by
        rw [pendingPoints_perm hpp, pendingPoints_cons]
      have hlt : evaluated.length < num := by
        have h2 := htop.2
        omega
      obtain ⟨lf, pushed, hde, hlfleaf, hlfwf, hlfsz, hgood, hwle, hperm⟩ :=
        descendStep_spec hpt hdist F.inf htop.1 htop.2 rest
      obtain ⟨ps, bs, hps, hbs, hpl, hbl, hall⟩ := WF_leaf_shape hlfwf hlfleaf
      have h1 := nearestStep_pop hpop num dist point evaluated
      rw [if_pos hlt, hde] at h1
      have h1b : nearestStep num dist point pending evaluated =
          (pushed ++ rest, scoreLeaf num dist point (ps.zip bs) evaluated) := by
        rw [h1, hps, hbs]
        rfl
      have hjl : ((pushed.map (fun e => e.element.allPoints)).join).length =
          pendingPoints pushed := by
        rw [length_joinmap, pendingPoints]
        congr 1
        refine List.map_congr_left ?_
        intro e he
        exact (WF_size_allPoints (hgood e he).1).symm
      have hsizes : top.element.size = pendingPoints pushed + lf.size := by
        have hp2 := (hperm rfl).length_eq
        rw [List.length_append, hjl, hall, hpl] at hp2
        rw [WF_size_allPoints htop.1]
        exact hp2.symm
      have hzl : (ps.zip bs).length = lf.size := by
        rw [List.length_zip, hpl, hbl, Nat.min_self]
      have hfits : evaluated.length + (ps.zip bs).length ≤ num := by
        rw [hzl]
        omega
      have h1c : nearestStep num dist point pending evaluated =
          (pushed ++ rest,
           ((ps.zip bs).map
             (fun pr => (⟨dist pr.1 point, pr.2⟩ : HeapElement α))).reverse
             ++ evaluated) := by
        rw [h1b, scoreLeaf_full _ _ _ _ _ hfits]
      have hreduce : nearestGo num dist point (fuel + 1) pending evaluated =
          nearestGo num dist point fuel (pushed ++ rest)
            (((ps.zip bs).map
              (fun pr => (⟨dist pr.1 point, pr.2⟩ : HeapElement α))).reverse
              ++ evaluated) := by
        rw [nearestGo, if_pos hcond, h1c]
      rw [hreduce]
      have hw2 : pendingWeight (pushed ++ rest) < fuel := by
        have e1 := pendingWeight_append pushed rest
        have e2 : pendingWeight pending = pendingWeight (top :: rest) :=
          pendingWeight_perm hpp
        rw [pendingWeight_cons] at e2
        have e3 : pendingWeight pushed + 1 ≤ top.element.leafCount := hwle
        omega
      have hwf2 : ∀ e ∈ pushed ++ rest,
          WF dims cap e.element ∧ 1 ≤ e.element.size := by
        intro e he
        rcases List.mem_append.1 he with he | he
        · exact ⟨(hgood e he).1, (hgood e he).2.1⟩
        · exact hwf e (hpp.mem_iff.2 (List.mem_cons_of_mem _ he))
      have hcount2 : ((((ps.zip bs).map
            (fun pr => (⟨dist pr.1 point, pr.2⟩ : HeapElement α))).reverse
            ++ evaluated).length) + pendingPoints (pushed ++ rest) = num := by
        rw [List.length_append, List.length_reverse, List.length_map, hzl,
          pendingPoints_append]
        omega
      refine (ih _ _ hw2 hwf2 hcount2).trans ?_
      have hA : (((ps.zip bs).map
          (fun pr => (⟨dist pr.1 point, pr.2⟩ : HeapElement α))).map
            (fun e => e.distance)) = ps.map (fun p => dist p point) := by
        rw [List.map_map]
        rw [show ((fun (e : HeapElement α) => e.distance) ∘
            (fun pr : List F × α => (⟨dist pr.1 point, pr.2⟩ : HeapElement α))) =
            ((fun p => dist p point) ∘ Prod.fst) from rfl]
        rw [← List.map_map, List.map_fst_zip ps bs (by omega)]
      have hrev : List.Perm ((((ps.zip bs).map
            (fun pr => (⟨dist pr.1 point, pr.2⟩ : HeapElement α))).reverse).map
              (fun e => e.distance))
          (ps.map (fun p => dist p point)) := by
        rw [List.map_reverse, hA]
        exact List.reverse_perm _
      have hTop : List.Perm
          ((((pushed.map (fun e => e.element.allPoints)).join).map
              (fun p => dist p point)) ++
            ps.map (fun p => dist p point))
          (top.element.allPoints.map (fun p => dist p point)) := by
        have h3 := (hperm rfl).map (fun p => dist p point)
        rw [List.map_append, hall] at h3
        exact h3
      have hPend : List.Perm
          (((pending.map (fun e => e.element.allPoints)).join).map
            (fun p => dist p point))
          ((top.element.allPoints.map (fun p => dist p point)) ++
            (((rest.map (fun e => e.element.allPoints)).join).map
              (fun p => dist p point))) := by
        have h3 := (perm_join_map (fun e => e.element.allPoints) hpp).map
          (fun p => dist p point)
        rw [joinmap_cons, List.map_append] at h3
        exact h3
      rw [joinmap_append, List.map_append, List.map_append]
      rw [← Multiset.coe_eq_coe]
      simp only [← Multiset.coe_add]
      rw [Multiset.coe_eq_coe.2 hrev, Multiset.coe_eq_coe.2 hPend]
      have htopm := Multiset.coe_eq_coe.2 hTop
      rw [← Multiset.coe_add] at htopm
      rw [← Multiset.coe_add, ← htopm]
      abel
    · rw [nearestGo, if_neg hcond]
      have hpe : pending = [] := by
        cases pending with
        | nil => rfl
        | cons e0 r0 =>
          exfalso
          apply hcond
          rw [nearestCond]
          have h3 := (hwf e0 (by simp)).2
          rw [pendingPoints_cons] at hcount
          have h2 : evaluated.length < num := by omega
          simp [h2]
      subst hpe
      simp [List.join]

/-- The search loop keeps at most `num` candidates, all with non-NaN
distances, and — as long as fewer than `num` candidates are kept — it never
prunes, so the kept candidates plus the pending points always account for all
`S` stored points.  Consequently the loop ends with exactly `num`
candidates whenever `num ≤ S`. -/
theorem nearestGo_len {dims cap : Nat} {dist : List F → List F → F}
    {point : List F} (hpt : validPoint dims point) (hdist : DistFinite dist)
    (num S : Nat) (hnum : num ≤ S) :
    ∀ (fuel : Nat) (pending : List (HeapElement (KdTree α)))
      (evaluated : List (HeapElement α)),
      pendingWeight pending < fuel →
      (∀ e ∈ pending, WF dims cap e.element ∧ 1 ≤ e.element.size) →
      (∀ x ∈ evaluated, x.distance.isNaN = false) →
      evaluated.length ≤ num →
      (evaluated.length < num →
        evaluated.length + pendingPoints pending = S) →
      (nearestGo num dist point fuel pending evaluated).length = num ∧
      ∀ x ∈ nearestGo num dist point fuel pending evaluated,
        x.distance.isNaN = false := by
  intro fuel
  induction fuel with
  | zero =>
    intro pending evaluated hw _ _ _ _
    exact absurd hw (Nat.not_lt_zero _)
  | succ fuel ih =>
    intro pending evaluated hw hwf hnn hlenle hcons
    by_cases hcond : nearestCond num pending evaluated = true
    · have hne : pending ≠ [] := by
        intro h
        subst h
        simp [nearestCond] at hcond
      obtain ⟨top, rest, hpop⟩ := heapPopMax_isSome hne
      have hpp : List.Perm pending (top :: rest) := heapPopMax_perm hpop
      have htop : WF dims cap top.element ∧ 1 ≤ top.element.size :=
        hwf top (hpp.mem_iff.2 (by simp))
      have hppsplit : pendingPoints pending =
          top.element.size + pendingPoints rest := by
        rw [pendingPoints_perm hpp, pendingPoints_cons]
      obtain ⟨lf, pushed, hde, hlfleaf, hlfwf, hlfsz, hgood, hwle, hperm⟩ :=
        descendStep_spec hpt hdist
          (if evaluated.length < num then F.inf else heapPeekDist evaluated)
          htop.1 htop.2 rest
      obtain ⟨ps, bs, hps, hbs, hpl, hbl, hall⟩ := WF_leaf_shape hlfwf hlfleaf
      have h1 := nearestStep_pop hpop num dist point evaluated
      rw [hde] at h1
      have h1b : nearestStep num dist point pending evaluated =
          (pushed ++ rest, scoreLeaf num dist point (ps.zip bs) evaluated) := by
        rw [h1, hps, hbs]
        rfl
      have hzl : (ps.zip bs).length = lf.size := by
        rw [List.length_zip, hpl, hbl, Nat.min_self]
      have hreduce : nearestGo num dist point (fuel + 1) pending evaluated =
          nearestGo num dist point fuel (pushed ++ rest)
            (scoreLeaf num dist point (ps.zip bs) evaluated) := by
        rw [nearestGo, if_pos hcond, h1b]
      rw [hreduce]
      have hw2 : pendingWeight (pushed ++ rest) < fuel := by
        have e1 := pendingWeight_append pushed rest
        have e2 : pendingWeight pending = pendingWeight (top :: rest) :=
          pendingWeight_perm hpp
        rw [pendingWeight_cons] at e2
        have e3 : pendingWeight pushed + 1 ≤ top.element.leafCount := hwle
        omega
      have hwf2 : ∀ e ∈ pushed ++ rest,
          WF dims cap e.element ∧ 1 ≤ e.element.size := by
        intro e he
        rcases List.mem_append.1 he with he | he
        · exact ⟨(hgood e he).1, (hgood e he).2.1⟩
        · exact hwf e (hpp.mem_iff.2 (List.mem_cons_of_mem _ he))
      have hnn2 : ∀ x ∈ scoreLeaf num dist point (ps.zip bs) evaluated,
          x.distance.isNaN = false := by
        refine scoreLeaf_nonnan _ _ _ _ _ hnn ?_
        intro pr hpr
        have hmem : pr.1 ∈ ps := (List.of_mem_zip hpr).1
        rw [← hall] at hmem
        have hv := WF_allPoints_valid hlfwf pr.1 hmem
        exact F.isNaN_false_of_isFinite (hdist _ _ hv.2 hpt.2)
      have hsl := scoreLeaf_length num dist point (ps.zip bs) evaluated hlenle
      have hlen2 : (scoreLeaf num dist point (ps.zip bs) evaluated).length ≤ num := by
        rw [hsl]
        omega
      have hcons2 : (scoreLeaf num dist point (ps.zip bs) evaluated).length < num →
          (scoreLeaf num dist point (ps.zip bs) evaluated).length +
            pendingPoints (pushed ++ rest) = S := by
        intro hlt2
        rw [hsl] at hlt2 ⊢
        have hltz : evaluated.length + (ps.zip bs).length < num := by omega
        have hlt : evaluated.length < num := by omega
        have hperm2 := hperm (by rw [if_pos hlt])
        have hjl : ((pushed.map (fun e => e.element.allPoints)).join).length =
            pendingPoints pushed := by
          rw [length_joinmap, pendingPoints]
          congr 1
          refine List.map_congr_left ?_
          intro e he
          exact (WF_size_allPoints (hgood e he).1).symm
        have hsizes : top.element.size = pendingPoints pushed + lf.size := by
          have hp2 := hperm2.length_eq
          rw [List.length_append, hjl, hall, hpl] at hp2
          rw [WF_size_allPoints htop.1]
          exact hp2.symm
        have hc := hcons hlt
        rw [pendingPoints_append]
        omega
      exact ih _ _ hw2 hwf2 hnn2 hlen2 hcons2
    · rw [nearestGo, if_neg hcond]
      refine ⟨?_, hnn⟩
      cases pending with
      | nil =>
        by_cases hl : evaluated.length < num
        · have hc := hcons hl
          have hppz : pendingPoints ([] : List (HeapElement (KdTree α))) = 0 := by
            simp [pendingPoints]
          omega
        · omega
      | cons e0 r0 =>
        have hnl : ¬(evaluated.length < num) := by
          intro hl
          apply hcond
          rw [nearestCond]
          simp [hl]
        omega

theorem insertAsc_perm {β : Type} (e : HeapElement β) :
    ∀ (l : List (HeapElement β)), List.Perm (insertAsc e l) (e :: l) := by
  intro l
  induction l with
  | nil => exact List.Perm.refl _
  | cons x xs ih =>
    rw [insertAsc]
    by_cases h : F.le e.distance x.distance = true
    · rw [if_pos h]
    · rw [if_neg h]
      exact (ih.cons x).trans (List.Perm.swap e x xs)

theorem sortAsc_perm {β : Type} :
    ∀ (l : List (HeapElement β)), List.Perm (sortAsc l) l := by
  intro l
  induction l with
  | nil => exact List.Perm.refl _
  | cons x xs ih =>
    rw [sortAsc]
    exact (insertAsc_perm x (sortAsc xs)).trans (ih.cons x)

theorem insertAsc_sorted {β : Type} (e : HeapElement β)
    (he : e.distance.isNaN = false) :
    ∀ (l : List (HeapElement β)), (∀ x ∈ l, x.distance.isNaN = false) →
      List.Pairwise (fun a b => F.le a.distance b.distance = true) l →
      List.Pairwise (fun a b => F.le a.distance b.distance = true)
        (insertAsc e l) := by
  intro l
  induction l with
  | nil =>
    intro _ _
    simp [insertAsc]
  | cons x xs ih =>
    intro hl hs
    rw [insertAsc]
    by_cases h : F.le e.distance x.distance = true
    · rw [if_pos h]
      refine List.Pairwise.cons ?_ hs
      intro y hy
      rcases List.mem_cons.1 hy with hy | hy
      · rw [hy]
        exact h
      · exact F.le_trans h ((List.pairwise_cons.1 hs).1 y hy)
    · rw [if_neg h]
      have hx := hl x (by simp)
      have hxe : F.le x.distance e.distance = true := by
        have hf : F.le e.distance x.distance = false := by simpa using h
        exact F.le_of_lt (F.lt_of_not_le he hx hf)
      refine List.Pairwise.cons ?_
        (ih (fun y hy => hl y (by simp [hy])) (List.pairwise_cons.1 hs).2)
      intro y hy
      rcases List.mem_cons.1 ((insertAsc_perm e xs).mem_iff.1 hy) with hy2 | hy2
      · rw [hy2]
        exact hxe
      · exact (List.pairwise_cons.1 hs).1 y hy2

theorem sortAsc_sorted {β : Type} :
    ∀ (l : List (HeapElement β)), (∀ x ∈ l, x.distance.isNaN = false) →
      List.Pairwise (fun a b => F.le a.distance b.distance = true)
        (sortAsc l) := by
  intro l
  induction l with
  | nil =>
    intro _
    simp [sortAsc]
  | cons x xs ih =>
    intro hl
    rw [sortAsc]
    refine insertAsc_sorted x (hl x (by simp)) (sortAsc xs) ?_
      (ih (fun y hy => hl y (by simp [hy])))
    intro y hy
    exact hl y (List.mem_cons_of_mem _ ((sortAsc_perm xs).mem_iff.1 hy))

theorem nearest_unfold {t : KdTree α} {point : List F} {num : Nat}
    {dist : List F → List F → F} (hcp : t.check_point point = .ok ()) :
    t.nearest point num dist =
      (if min num t.size = 0 then .ok []
       else .ok (((sortAsc (nearestGo (min num t.size) dist point
           (t.leafCount + 1) [⟨F.fin 0, t⟩] [])).take (min num t.size)).map
           fun e => (e.distance, e.element))) := by
  rw [KdTree.nearest, hcp]

theorem nearest_bruteforce_of_WF {dims cap : Nat} {t : KdTree α}
    (h : WF dims cap t) {point : List F} {dist : List F → List F → F}
    (hdist : DistFinite dist) (hcp : t.check_point point = .ok ()) :
    ∃ res, t.nearest point t.size dist = .ok res ∧
      List.Perm (res.map Prod.fst)
        (t.allPoints.map (fun p => dist p point)) := by
  have hdims := WF_dimensions h
  have hpt : validPoint dims point := by
    obtain ⟨h1, h2⟩ := (check_point_ok_iff t point).1 hcp
    exact ⟨by rw [h1, hdims], h2⟩
  have hsz := WF_size_allPoints h
  rcases Nat.eq_zero_or_pos t.size with hS | hS
  · refine ⟨[], ?_, ?_⟩
    · rw [nearest_unfold hcp, if_pos (by omega)]
    · rw [hS] at hsz
      rw [List.eq_nil_of_length_eq_zero hsz.symm]
      simp
  · have hfull := nearestGo_full hpt hdist t.size (t.leafCount + 1)
      [⟨F.fin 0, t⟩] []
      (by simp [pendingWeight])
      (by intro e he; simp at he; rw [he]; exact ⟨h, hS⟩)
      (by simp [pendingPoints])
    have hfull2 : List.Perm
        ((nearestGo t.size dist point (t.leafCount + 1)
            [⟨F.fin 0, t⟩] []).map (fun e => e.distance))
        (t.allPoints.map (fun p => dist p point)) := by
      simpa [List.join] using hfull
    have hlenEv : (nearestGo t.size dist point (t.leafCount + 1)
        [⟨F.fin 0, t⟩] []).length = t.size := by
      have h2 := hfull2.length_eq
      simp at h2
      omega
    refine ⟨((sortAsc (nearestGo t.size dist point (t.leafCount + 1)
        [⟨F.fin 0, t⟩] [])).take t.size).map
          (fun e => (e.distance, e.element)), ?_, ?_⟩
    · rw [nearest_unfold hcp, Nat.min_self, if_neg (by omega)]
    · have htake : (sortAsc (nearestGo t.size dist point (t.leafCount + 1)
          [⟨F.fin 0, t⟩] [])).take t.size =
          sortAsc (nearestGo t.size dist point (t.leafCount + 1)
            [⟨F.fin 0, t⟩] []) := by
        refine List.take_of_length_le ?_
        rw [(sortAsc_perm _).length_eq, hlenEv]
      rw [htake, List.map_map]
      rw [show (Prod.fst ∘ fun (e : HeapElement α) => (e.distance, e.element)) =
        (fun e => e.distance) from rfl]
      exact ((sortAsc_perm _).map _).trans hfull2

theorem nearest_sorted_of_WF {dims cap : Nat} {t : KdTree α}
    (h : WF dims cap t) {point : List F} {num : Nat}
    {dist : List F → List F → F} (hdist : DistFinite dist)
    (hcp : t.check_point point = .ok ()) :
    ∃ res, t.nearest point num dist = .ok res ∧
      res.length = min num t.size ∧
      List.Pairwise (fun a b : F × α => F.le a.1 b.1 = true) res := by
  have hdims := WF_dimensions h
  have hpt : validPoint dims point := by
    obtain ⟨h1, h2⟩ := (check_point_ok_iff t point).1 hcp
    exact ⟨by rw [h1, hdims], h2⟩
  rcases Nat.eq_zero_or_pos (min num t.size) with hm | hm
  · refine ⟨[], ?_, ?_, List.Pairwise.nil⟩
    · rw [nearest_unfold hcp, if_pos hm]
    · simp only [List.length_nil]
      exact hm.symm
  · have hnum2 : min num t.size ≤ t.size := Nat.min_le_right _ _
    obtain ⟨hL, hNN⟩ := nearestGo_len hpt hdist (min num t.size) t.size hnum2
      (t.leafCount + 1) [⟨F.fin 0, t⟩] []
      (by simp [pendingWeight])
      (by intro e he; simp at he; rw [he]; exact ⟨h, lt_of_lt_of_le hm hnum2⟩)
      (by intro x hx; simp at hx)
      (by simp)
      (by intro _; simp [pendingPoints])
    refine ⟨((sortAsc (nearestGo (min num t.size) dist point (t.leafCount + 1)
        [⟨F.fin 0, t⟩] [])).take (min num t.size)).map
          (fun e => (e.distance, e.element)), ?_, ?_, ?_⟩
    · rw [nearest_unfold hcp, if_neg (by omega)]
    · rw [List.length_map, List.length_take, (sortAsc_perm _).length_eq, hL]
      omega
    · rw [List.pairwise_map]
      refine List.Pairwise.sublist (List.take_sublist _ _) ?_
      exact sortAsc_sorted _ (fun x hx => hNN x hx)

/-- C3: on every tree built by a sequence of `add` calls and every query point
accepted by `check_point`, `nearest(point, size, dist)` succeeds and returns
one entry per stored point, whose distances are exactly the multiset of
brute-force distances from the query to every stored point — for any distance
function that is finite on finite inputs (squared Euclidean in particular). -/
theorem claim3_nearest_bruteforce (dims cap : Nat) (inputs : List (List F × α))
    (point : List F) (dist : List F → List F → F) (hdist : DistFinite dist)
    (hcp : (runAdds (KdTree.new_with_capacity α dims cap) inputs).check_point
      point = .ok ()) :
    ∃ res,
      (runAdds (KdTree.new_with_capacity α dims cap) inputs).nearest point
        (runAdds (KdTree.new_with_capacity α dims cap) inputs).size dist =
        .ok res ∧
      List.Perm (res.map Prod.fst)
        ((runAdds (KdTree.new_with_capacity α dims cap) inputs).allPoints.map
          (fun p => dist p point)) :=
  nearest_bruteforce_of_WF (runAdds_WF dims cap inputs) hdist hcp

/-- C4: on every tree built by a sequence of `add` calls and every query point
accepted by `check_point`, `nearest(point, num, dist)` succeeds with exactly
`min num size` entries sorted ascending by distance; in particular it returns
the empty list when `min num size = 0`, and an oversized `num` is silently
clamped to `size`. -/
theorem claim4_nearest_sorted_clamped (dims cap num : Nat)
    (inputs : List (List F × α)) (point : List F)
    (dist : List F → List F → F) (hdist : DistFinite dist)
    (hcp : (runAdds (KdTree.new_with_capacity α dims cap) inputs).check_point
      point = .ok ()) :
    ∃ res,
      (runAdds (KdTree.new_with_capacity α dims cap) inputs).nearest point
        num dist = .ok res ∧
      res.length = min num (runAdds (KdTree.new_with_capacity α dims cap)
        inputs).size ∧
      List.Pairwise (fun a b : F × α => F.le a.1 b.1 = true) res :=
  nearest_sorted_of_WF (runAdds_WF dims cap inputs) hdist hcp

/-- The inserts that exhibit the pruning bug of `nearest_step`: a capacity-2
one-dimensional tree holding 0, 6 and 10, which splits at 5 into a left leaf
`{0}` and a right leaf `{10, 6}`. -/
def c1inputs : List (List F × Nat) :=
  [([F.fin 0], 0), ([F.fin 6], 1), ([F.fin 10], 2)]

/-- C1 is false on the code: querying the `c1inputs` tree at 4 with `k = 1`
under squared Euclidean distance returns the single entry at squared distance
16 (the point 0), although a stored point (6) lies at squared distance 4 —
so `nearest` does not return the exact nearest point even though
`min k size = 1` entries were requested and returned. -/
theorem claim1_nearest_not_exact :
    (runAdds (KdTree.new_with_capacity Nat 1 2) c1inputs).nearest [F.fin 4] 1
      sqDist = .ok [(F.fin 16, 0)] ∧
    F.fin 4 ∈ (runAdds (KdTree.new_with_capacity Nat 1 2) c1inputs).allPoints.map
      (fun p => sqDist p [F.fin 4]) ∧
    F.lt (F.fin 4) (F.fin 16) = true ∧
    min 1 (runAdds (KdTree.new_with_capacity Nat 1 2) c1inputs).size = 1 := by
  refine ⟨?_, ?_, by norm_num [F.lt], ?_⟩ <;>
  norm_num [c1inputs, runAdds, runAddsCount, KdTree.add, KdTree.new_with_capacity,
    KdTree.check_point, checkCoords, KdTree.add_unchecked, KdTree.add_to_bucket,
    KdTree.is_leaf, KdTree.extend, extendBounds, KdTree.splitWith, splitDimGo,
    spreadAt, routeOrder, KdTree.belongs_in_left, KdTree.size, KdTree.left,
    KdTree.right, KdTree.points, KdTree.bucket, KdTree.split_value,
    KdTree.split_dimension, KdTree.dimensions, KdTree.capacity, KdTree.min_bounds,
    KdTree.max_bounds, F.sub, F.lt, F.le, F.add, F.div2, F.isNaN, F.isFinite,
    F.neg, List.getD, Option.map, KdTree.nearest, KdTree.leafCount, nearestGo,
    nearestCond, nearestStep, descendStep, scoreLeaf, scoreOne, heapPopMax,
    heapPeekDist, heapPush, sortAsc, insertAsc, clampToBox, distance_to_space,
    sqDist, sqDiff, KdTree.allPoints]

/-- C2 is false on the code: during the descent of the `c1inputs` tree for the
query 4 (with no pruning threshold, `evaluated_dist = inf`), exactly one
far-side sibling is pushed, and the lower bound it is pushed with (the negated
stored priority, `-(-16) = 16`) is the distance to the box of the NEAR child
that was just descended into (`{0}`, at squared distance 16) — not the
distance to the pushed far child's own box (`{10, 6}`, whose box [6, 10] lies
at squared distance 4 from the query). -/
theorem claim2_wrong_far_bound :
    ((descendStep sqDist [F.fin 4] F.inf
        (runAdds (KdTree.new_with_capacity Nat 1 2) c1inputs) []).2.map
      (fun e => e.distance)) = [F.fin (-16)] ∧
    ((descendStep sqDist [F.fin 4] F.inf
        (runAdds (KdTree.new_with_capacity Nat 1 2) c1inputs) []).2.map
      (fun e => distance_to_space [F.fin 4] e.element.min_bounds
        e.element.max_bounds sqDist)) = [F.fin 4] ∧
    ¬ (F.neg (F.fin (-16)) = F.fin 4) := by
  refine ⟨?_, ?_, by simp [F.neg]⟩ <;>
  norm_num [c1inputs, runAdds, runAddsCount, KdTree.add, KdTree.new_with_capacity,
    KdTree.check_point, checkCoords, KdTree.add_unchecked, KdTree.add_to_bucket,
    KdTree.is_leaf, KdTree.extend, extendBounds, KdTree.splitWith, splitDimGo,
    spreadAt, routeOrder, KdTree.belongs_in_left, KdTree.size, KdTree.left,
    KdTree.right, KdTree.points, KdTree.bucket, KdTree.split_value,
    KdTree.split_dimension, KdTree.dimensions, KdTree.capacity, KdTree.min_bounds,
    KdTree.max_bounds, F.sub, F.lt, F.le, F.add, F.div2, F.isNaN, F.isFinite,
    F.neg, List.getD, Option.map, descendStep, heapPush, clampToBox,
    distance_to_space, sqDist, sqDiff]

theorem claim3_witness :
    ∃ res,
      (runAdds (KdTree.new_with_capacity Nat 1 2) c1inputs).nearest [F.fin 4]
        (runAdds (KdTree.new_with_capacity Nat 1 2) c1inputs).size sqDist =
        .ok res ∧
      List.Perm (res.map Prod.fst)
        ((runAdds (KdTree.new_with_capacity Nat 1 2) c1inputs).allPoints.map
          (fun p => sqDist p [F.fin 4])) := by
  refine claim3_nearest_bruteforce 1 2 c1inputs [F.fin 4] sqDist
    sqDist_distFinite ?_
  norm_num [c1inputs, runAdds, runAddsCount, KdTree.add, KdTree.new_with_capacity,
    KdTree.check_point, checkCoords, KdTree.add_unchecked, KdTree.add_to_bucket,
    KdTree.is_leaf, KdTree.extend, extendBounds, KdTree.splitWith, splitDimGo,
    spreadAt, routeOrder, KdTree.belongs_in_left, KdTree.size, KdTree.left,
    KdTree.right, KdTree.points, KdTree.bucket, KdTree.split_value,
    KdTree.split_dimension, KdTree.dimensions, KdTree.capacity, KdTree.min_bounds,
    KdTree.max_bounds, F.sub, F.lt, F.le, F.add, F.div2, F.isNaN, F.isFinite,
    F.neg, List.getD, Option.map]

theorem claim4_witness :
    ∃ res,
      (runAdds (KdTree.new_with_capacity Nat 1 2) c1inputs).nearest [F.fin 4]
        2 sqDist = .ok res ∧
      res.length = min 2 (runAdds (KdTree.new_with_capacity Nat 1 2)
        c1inputs).size ∧
      List.Pairwise (fun a b : F × Nat => F.le a.1 b.1 = true) res := by
  refine claim4_nearest_sorted_clamped 1 2 2 c1inputs [F.fin 4] sqDist
    sqDist_distFinite ?_
  norm_num [c1inputs, runAdds, runAddsCount, KdTree.add, KdTree.new_with_capacity,
    KdTree.check_point, checkCoords, KdTree.add_unchecked, KdTree.add_to_bucket,
    KdTree.is_leaf, KdTree.extend, extendBounds, KdTree.splitWith, splitDimGo,
    spreadAt, routeOrder, KdTree.belongs_in_left, KdTree.size, KdTree.left,
    KdTree.right, KdTree.points, KdTree.bucket, KdTree.split_value,
    KdTree.split_dimension, KdTree.dimensions, KdTree.capacity, KdTree.min_bounds,
    KdTree.max_bounds, F.sub, F.lt, F.le, F.add, F.div2, F.isNaN, F.isFinite,
    F.neg, List.getD, Option.map]

theorem claim5_witness :
    specSplitDim (KdTree.mk none none 1 1 2 [F.fin 0] [F.fin 10] none none
        (some [[F.fin 0], [F.fin 10]]) (some [0, 1]) : KdTree Nat).dimensions
      (KdTree.mk none none 1 1 2 [F.fin 0] [F.fin 10] none none
        (some [[F.fin 0], [F.fin 10]]) (some [0, 1]) : KdTree Nat).min_bounds
      (KdTree.mk none none 1 1 2 [F.fin 0] [F.fin 10] none none
        (some [[F.fin 0], [F.fin 10]]) (some [0, 1]) : KdTree Nat).max_bounds =
      some 0 ∧
    ((KdTree.mk none none 1 1 2 [F.fin 0] [F.fin 10] none none
        (some [[F.fin 0], [F.fin 10]]) (some [0, 1]) : KdTree Nat).splitWith
        (fun t _ _ => t) [[F.fin 0], [F.fin 10]] [0, 1]).split_value =
      some (F.add ((KdTree.mk none none 1 1 2 [F.fin 0] [F.fin 10] none none
          (some [[F.fin 0], [F.fin 10]]) (some [0, 1]) : KdTree Nat).min_bounds.getD
            0 F.nan)
        (F.div2 (F.sub ((KdTree.mk none none 1 1 2 [F.fin 0] [F.fin 10] none none
            (some [[F.fin 0], [F.fin 10]]) (some [0, 1]) : KdTree Nat).max_bounds.getD
              0 F.nan)
          ((KdTree.mk none none 1 1 2 [F.fin 0] [F.fin 10] none none
            (some [[F.fin 0], [F.fin 10]]) (some [0, 1]) : KdTree Nat).min_bounds.getD
              0 F.nan)))) := by
  refine claim5_split_dimension_and_value _ (fun t _ _ => t)
    [[F.fin 0], [F.fin 10]] [0, 1] 0 rfl ?_
  norm_num [KdTree.splitWith, splitDimGo, spreadAt, routeOrder,
    KdTree.belongs_in_left, KdTree.new_with_capacity, KdTree.split_dimension,
    KdTree.split_value, KdTree.dimensions, KdTree.min_bounds, KdTree.max_bounds,
    F.sub, F.lt, F.le, F.add, F.div2, F.isNaN, F.isFinite, List.getD]

theorem claim6_witness :
    (runAdds (KdTree.new_with_capacity Nat 1 2) [([F.fin 0], 0)]).size ≤ 2 ∨
    ∀ p ∈ (runAdds (KdTree.new_with_capacity Nat 1 2)
        [([F.fin 0], 0)]).points.getD [],
      ∀ q ∈ (runAdds (KdTree.new_with_capacity Nat 1 2)
          [([F.fin 0], 0)]).points.getD [],
        p = q := by
  refine claim6_leaf_capacity 1 2 [([F.fin 0], 0)] _ (self_mem_subtrees _) ?_
  norm_num [runAdds, runAddsCount, KdTree.add, KdTree.new_with_capacity,
    KdTree.check_point, checkCoords, KdTree.add_unchecked, KdTree.add_to_bucket,
    KdTree.is_leaf, KdTree.extend, extendBounds, KdTree.splitWith, splitDimGo,
    spreadAt, routeOrder, KdTree.belongs_in_left, KdTree.size, KdTree.left,
    KdTree.right, KdTree.points, KdTree.bucket, KdTree.split_value,
    KdTree.split_dimension, KdTree.dimensions, KdTree.capacity, KdTree.min_bounds,
    KdTree.max_bounds, F.sub, F.lt, F.le, F.add, F.div2, F.isNaN, F.isFinite,
    F.neg, List.getD, Option.map]

theorem claim10_amended_witness :
    ∃ lc rc,
      (KdTree.add_to_bucket 2 (.mk none none 1 2 2 [F.fin 0] [F.fin 6] none none
        (some [[F.fin 0], [F.fin 6]]) (some [0, 1])) [F.fin 10] (2 : Nat)).left =
        some lc ∧
      (KdTree.add_to_bucket 2 (.mk none none 1 2 2 [F.fin 0] [F.fin 6] none none
        (some [[F.fin 0], [F.fin 6]]) (some [0, 1])) [F.fin 10] (2 : Nat)).right =
        some rc ∧
      lc.is_leaf = true ∧ rc.is_leaf = true ∧
      1 ≤ lc.size ∧ lc.size ≤ 2 ∧ 1 ≤ rc.size ∧ rc.size ≤ 2 ∧
      lc.size + rc.size = 2 + 1 := by
  refine claim10_amended 0 [F.fin 10] 2 (by norm_num) (by norm_num) (by norm_num)
    ?_ ?_ ?_ (by norm_num) ?_
  · intro q hq
    simp at hq
    rcases hq with h | h <;> subst h <;> simp [validPoint, F.isFinite]
  · exact ⟨rfl, by intro c hc; simp at hc; rw [hc]; rfl⟩
  · refine ⟨rfl, rfl, by simp, ?_⟩
    intro _ d hd
    simp at hd
    subst hd
    refine ⟨⟨[F.fin 0], by simp, rfl⟩, ?_, ⟨[F.fin 6], by simp, rfl⟩, ?_⟩
    · intro p hp
      simp at hp
      rcases hp with h | h <;> subst h <;>
        norm_num [F.le, F.lt, F.isNaN, List.getD]
    · intro p hp
      simp at hp
      rcases hp with h | h <;> subst h <;>
        norm_num [F.le, F.lt, F.isNaN, List.getD]
  · norm_num [KdTree.add_to_bucket, KdTree.extend, extendBounds, KdTree.splitWith,
      splitDimGo, spreadAt, routeOrder, KdTree.belongs_in_left,
      KdTree.new_with_capacity, KdTree.is_leaf, KdTree.size, KdTree.left,
      KdTree.right, KdTree.points, KdTree.bucket, KdTree.split_value,
      KdTree.split_dimension, KdTree.dimensions, KdTree.capacity,
      KdTree.min_bounds, KdTree.max_bounds, F.sub, F.lt, F.le, F.add, F.div2,
      F.isNaN, F.isFinite, List.getD]

end Kd
